import Mathlib

/-!
Verification of the categorization, selection and layout engine of the
`visualizations` repository (`layout.py`, class `VisualizationLayout`).

The tabular input is embedded as a list of `Entry` records (one per row of
the input table, with the columns the engine reads); dataframe boolean-mask
filtering becomes `List.filter`, the anti-join used for tie-breaking becomes
a membership filter, and `sort_values` becomes a stable insertion sort keyed
by the sort criterion.  Floating point numbers are modelled by `ℚ`
(`float('inf')` as the `none` case of an `Option ℚ`).  Column-name strings
(`region_key`, `postcode_key`, the incidence keys, `time_safe_key`) are
modelled by named fields / an enumeration of criteria, assuming the
configured column names are pairwise distinct as in the default
configuration.
-/

/-- One row of the input table, restricted to the columns the engine reads.
`primary`, `secondary` model the two incidence columns, `timeSafe` the
"COVID-free days" column. -/
structure Entry where
  region : String
  postcode : String
  timeSafe : ℚ
  primary : ℚ
  secondary : ℚ
deriving DecidableEq, Repr, Inhabited

/-- The sort criteria a category can use (`__init_sorting_criteria__`):
the time-safe column for category 0, an incidence column otherwise. -/
inductive Criterion where
  | timeSafe
  | primary
  | secondary
deriving DecidableEq, Repr

/-- Reading the column a criterion names. -/
def Criterion.val : Criterion → Entry → ℚ
  | .timeSafe => Entry.timeSafe
  | .primary => Entry.primary
  | .secondary => Entry.secondary

/-- The configuration parameters the engine reads (`__read_config__` plus the
required constructor arguments).  `numCategories = len(labels)` and
`lowerBounds` is the configured list (before the synthesized final bound is
appended). -/
structure Config where
  numCategories : Nat
  lowerBounds : List ℚ
  calcSecondary : List Bool
  totalDisplay : Nat
  minDisplay : Nat
  minSpaceX : ℚ
  minSpaceY : ℚ
  yRange : ℚ × ℚ

/-- Maximum of a list of rationals (pandas `Series.max` on a non-empty
column). -/
def listMax : List ℚ → ℚ
  | [] => 0
  | x :: xs => xs.foldl max x

/-- Minimum of a list of rationals (pandas `Series.min` on a non-empty
column). -/
def listMin : List ℚ → ℚ
  | [] => 0
  | x :: xs => xs.foldl min x

/-- Line 139: `self.lower_bounds.append(self.input_table[primary_key].max() + 1)`. -/
def adjustedBounds (cfg : Config) (table : List Entry) : List ℚ :=
  cfg.lowerBounds ++ [listMax (table.map Entry.primary) + 1]

/-- Source `__get_incidence_key__`: the incidence criterion used by category `i`. -/
def incCriterion (cfg : Config) (i : Nat) : Criterion :=
  if cfg.calcSecondary.getD i false then .secondary else .primary

/-- Source `__init_sorting_criteria__`: category 0 sorts by the time-safe column,
all other categories by their incidence column. -/
def sortCriteria (cfg : Config) (i : Nat) : Criterion :=
  if i = 0 then .timeSafe else incCriterion cfg i

/-- The category-membership predicate of `__categorize_entries__` (lines
206-217): incidence at least the category's lower bound, and either below
the next bound or — when the two bounds coincide — equal to the next bound. -/
def inCategory (bounds : List ℚ) (inc : ℚ) (i : Nat) : Bool :=
  decide (bounds.getD i 0 ≤ inc) &&
    (decide (inc < bounds.getD (i + 1) 0) ||
      (decide (bounds.getD i 0 = bounds.getD (i + 1) 0) &&
        decide (inc = bounds.getD (i + 1) 0)))

/-- The pool of category `i` before tie-breaking: the rows of the table
satisfying the membership predicate for the category's incidence column. -/
def rawPool (table : List Entry) (bounds : List ℚ) (cfg : Config) (i : Nat) :
    List Entry :=
  table.filter (fun e => inCategory bounds ((incCriterion cfg i).val e) i)

/-- One step of the tie-break loop (lines 221-225): replace pool `i` by the
anti-join of pool `i` against pool `i-1` (row equality, as the pandas
`merge ... query('_merge=="left_only"')` does). -/
def removeOverlap (pools : List (List Entry)) (i : Nat) : List (List Entry) :=
  pools.set i
    ((pools.getD i []).filter (fun e => !decide (e ∈ pools.getD (i - 1) [])))

/-- Source `__categorize_entries__`: build the raw pools, then run the tie-break
loop over `reversed(range(1, num_categories))`. -/
def categorize (table : List Entry) (bounds : List ℚ) (cfg : Config)
    (n : Nat) : List (List Entry) :=
  ((List.range' 1 (n - 1)).reverse).foldl removeOverlap
    ((List.range n).map (fun i => rawPool table bounds cfg i))

/-- The categorized pools of the constructed layout. -/
def categorizedEntries (cfg : Config) (table : List Entry) :
    List (List Entry) :=
  categorize table (adjustedBounds cfg table) cfg cfg.numCategories

/-- Source `__calculate_ratios__`: each category's share of the total row count. -/
def calculateRatios (pools : List (List Entry)) (total : Nat) : List ℚ :=
  pools.map (fun p => (p.length : ℚ) / (total : ℚ))

/-- The shares of the constructed layout. -/
def ratiosOf (cfg : Config) (table : List Entry) : List ℚ :=
  calculateRatios (categorizedEntries cfg table) table.length

/-- Source `__attempt_adjust_y_range__` (lines 450-452): if the candidate label `y`
falls below the viewport's lower bound, shift the lower bound to
`y - (upper - 1)` keeping the upper bound. -/
def attemptAdjustYRange (y : ℚ) (yr : ℚ × ℚ) : ℚ × ℚ :=
  if y < yr.1 then (y - (yr.2 - 1), yr.2) else yr

/-- C9: one application of the Range Auto-Expander leaves the range unchanged
when `y` is at or above the lower bound and otherwise moves the lower bound
to `y - (upper - 1)` with the upper bound unchanged; a second application
with the same `y` is always a no-op. -/
theorem attemptAdjustYRange_spec_and_idem (y : ℚ) (yr : ℚ × ℚ) :
    attemptAdjustYRange y yr =
      (if y < yr.1 then (y - (yr.2 - 1), yr.2) else yr) ∧
    attemptAdjustYRange y (attemptAdjustYRange y yr) =
      attemptAdjustYRange y yr := by
  constructor
  · rfl
  · unfold attemptAdjustYRange
    by_cases h : y < yr.1
    · simp only [h, if_pos]
      by_cases h2 : y < (y - (yr.2 - 1), yr.2).1
      · simp [h2]
      · simp [h2]
    · simp [h]

/-! ### Characterization of the tie-break loop -/

/-- Helper: `getD` after `set` at the written index. -/
theorem getD_set_eq {α : Type} (l : List α) (i : Nat) (a d : α)
    (h : i < l.length) : (l.set i a).getD i d = a := by
  rw [List.getD_eq_getElem?_getD, List.getElem?_set_self h]
  rfl

/-- Helper: `getD` after `set` at another index. -/
theorem getD_set_ne {α : Type} (l : List α) {i j : Nat} (a d : α)
    (h : i ≠ j) : (l.set i a).getD j d = l.getD j d := by
  rw [List.getD_eq_getElem?_getD, List.getElem?_set_ne h,
    ← List.getD_eq_getElem?_getD]

/-- The tie-break loop over a strictly decreasing index list replaces each
visited pool `i` by its anti-join against the ORIGINAL pool `i-1` (the pool
`i-1` is only rewritten at a later iteration). -/
theorem foldl_removeOverlap_getD (js : List Nat) (hjs : js.Pairwise (· > ·))
    (pools : List (List Entry)) (i : Nat) :
    (js.foldl removeOverlap pools).getD i [] =
      if i ∈ js then
        (pools.getD i []).filter
          (fun e => !decide (e ∈ pools.getD (i - 1) []))
      else pools.getD i [] := by
  induction js generalizing pools with
  | nil => simp
  | cons j rest ih =>
    have hj : ∀ k ∈ rest, j > k := (List.pairwise_cons.mp hjs).1
    have hrest : rest.Pairwise (· > ·) := (List.pairwise_cons.mp hjs).2
    rw [List.foldl_cons, ih hrest]
    by_cases hmem : i ∈ rest
    · have hij : i < j := hj i hmem
      have h1 : (removeOverlap pools j).getD i [] = pools.getD i [] :=
        getD_set_ne _ _ _ (Nat.ne_of_gt hij)
      have h2 : (removeOverlap pools j).getD (i - 1) [] =
          pools.getD (i - 1) [] :=
        getD_set_ne _ _ _ (Nat.ne_of_gt (lt_of_le_of_lt (Nat.sub_le i 1) hij))
      rw [if_pos hmem, if_pos (List.mem_cons_of_mem j hmem), h1, h2]
    · by_cases hij : i = j
      · subst hij
        rw [if_neg hmem, if_pos (List.mem_cons_self i rest)]
        by_cases hlen : i < pools.length
        · exact getD_set_eq _ _ _ _ hlen
        · have hle : pools.length ≤ i := le_of_not_lt hlen
          unfold removeOverlap
          rw [List.set_eq_of_length_le hle, List.getD_eq_default _ _ hle]
          rfl
      · have h1 : (removeOverlap pools j).getD i [] = pools.getD i [] :=
          getD_set_ne _ _ _ (fun h => hij h.symm)
        have hnot : i ∉ j :: rest := by
          intro h
          rcases List.mem_cons.mp h with h' | h'
          · exact hij h'
          · exact hmem h'
        rw [if_neg hmem, if_neg hnot, h1]

/-- The raw pool read off the mapped range list. -/
theorem rawList_getD (table : List Entry) (bounds : List ℚ) (cfg : Config)
    (n i : Nat) (hi : i < n) :
    ((List.range n).map (fun k => rawPool table bounds cfg k)).getD i [] =
      rawPool table bounds cfg i := by
  rw [List.getD_eq_getElem?_getD, List.getElem?_map, List.getElem?_range hi]
  rfl

/-- Final shape of the pools produced by `__categorize_entries__`: pool 0 is
its raw pool, and every later pool is its raw pool minus the rows of the
previous raw pool. -/
theorem categorize_getD (table : List Entry) (bounds : List ℚ) (cfg : Config)
    (n i : Nat) (hi : i < n) :
    (categorize table bounds cfg n).getD i [] =
      if 1 ≤ i then
        (rawPool table bounds cfg i).filter
          (fun e => !decide (e ∈ rawPool table bounds cfg (i - 1)))
      else rawPool table bounds cfg i := by
  unfold categorize
  have hpair : ((List.range' 1 (n - 1)).reverse).Pairwise (· > ·) := by
    rw [List.pairwise_reverse]
    exact List.pairwise_lt_range' 1 (n - 1)
  rw [foldl_removeOverlap_getD _ hpair]
  have hmem : i ∈ (List.range' 1 (n - 1)).reverse ↔ 1 ≤ i := by
    rw [List.mem_reverse, List.mem_range'_1]
    constructor
    · exact fun h => h.1
    · intro h
      exact ⟨h, by omega⟩
  by_cases h1 : 1 ≤ i
  · rw [if_pos (hmem.mpr h1), if_pos h1, rawList_getD _ _ _ _ _ hi,
      rawList_getD _ _ _ _ _ (by omega)]
  · rw [if_neg (fun h => h1 (hmem.mp h)), if_neg h1,
      rawList_getD _ _ _ _ _ hi]

/-- Membership in a raw pool, as a proposition. -/
theorem mem_rawPool {table : List Entry} {bounds : List ℚ} {cfg : Config}
    {i : Nat} {e : Entry} :
    e ∈ rawPool table bounds cfg i ↔
      e ∈ table ∧ bounds.getD i 0 ≤ (incCriterion cfg i).val e ∧
        ((incCriterion cfg i).val e < bounds.getD (i + 1) 0 ∨
          (bounds.getD i 0 = bounds.getD (i + 1) 0 ∧
            (incCriterion cfg i).val e = bounds.getD (i + 1) 0)) := by
  unfold rawPool inCategory
  rw [List.mem_filter]
  simp [and_assoc]

/-- Membership in a final pool (index below `n`). -/
theorem mem_categorize {table : List Entry} {bounds : List ℚ} {cfg : Config}
    {n i : Nat} (hi : i < n) {e : Entry} :
    e ∈ (categorize table bounds cfg n).getD i [] ↔
      e ∈ rawPool table bounds cfg i ∧
        (i = 0 ∨ e ∉ rawPool table bounds cfg (i - 1)) := by
  rw [categorize_getD table bounds cfg n i hi]
  by_cases h1 : 1 ≤ i
  · rw [if_pos h1, List.mem_filter]
    simp only [Bool.not_eq_true', decide_eq_false_iff_not]
    constructor
    · exact fun ⟨h, h'⟩ => ⟨h, Or.inr h'⟩
    · rintro ⟨h, h' | h'⟩
      · omega
      · exact ⟨h, h'⟩
  · have hz : i = 0 := by omega
    subst hz
    rw [if_neg h1]
    exact ⟨fun h => ⟨h, Or.inl rfl⟩, fun h => h.1⟩

/-! ### The categorizer partitions the in-range rows (C1) -/

/-- Every element of a `max`-fold is bounded by the fold. -/
theorem le_foldl_max (l : List ℚ) (b : ℚ) : b ≤ l.foldl max b := by
  induction l generalizing b with
  | nil => exact le_refl b
  | cons x xs ih => exact le_trans (le_max_left b x) (ih (max b x))

/-- Members of a list are bounded by any `max`-fold over it. -/
theorem mem_le_foldl_max {l : List ℚ} {x : ℚ} (b : ℚ) (h : x ∈ l) :
    x ≤ l.foldl max b := by
  induction l generalizing b with
  | nil => cases h
  | cons y ys ih =>
    rcases List.mem_cons.mp h with h' | h'
    · subst h'
      exact le_trans (le_max_right b x) (le_foldl_max ys (max b x))
    · exact ih (max b y) h'

/-- Members of a list are bounded by `listMax`. -/
theorem le_listMax {l : List ℚ} {x : ℚ} (h : x ∈ l) : x ≤ listMax l := by
  cases l with
  | nil => cases h
  | cons y ys =>
    rcases List.mem_cons.mp h with h' | h'
    · subst h'
      exact le_foldl_max ys x
    · exact mem_le_foldl_max y h'

/-- Monotone access to a `Chain' (· ≤ ·)` list of bounds. -/
theorem bounds_mono {bounds : List ℚ} (hch : bounds.Chain' (· ≤ ·))
    {p q : Nat} (hpq : p ≤ q) (hq : q < bounds.length) :
    bounds.getD p 0 ≤ bounds.getD q 0 := by
  rcases eq_or_lt_of_le hpq with h | h
  · subst h
    exact le_refl _
  · rw [List.getD_eq_getElem _ _ (lt_trans h hq), List.getD_eq_getElem _ _ hq]
    exact List.pairwise_iff_getElem.mp (List.chain'_iff_pairwise.mp hch)
      p q (lt_trans h hq) hq h

/-- The membership predicate of `__categorize_entries__` at the level of
propositions on the incidence value. -/
def inCatProp (bounds : List ℚ) (x : ℚ) (i : Nat) : Prop :=
  bounds.getD i 0 ≤ x ∧
    (x < bounds.getD (i + 1) 0 ∨
      (bounds.getD i 0 = bounds.getD (i + 1) 0 ∧ x = bounds.getD (i + 1) 0))

instance (bounds : List ℚ) (x : ℚ) (i : Nat) :
    Decidable (inCatProp bounds x i) := by
  unfold inCatProp
  infer_instance

/-- The test `inCategory` decides `inCatProp`. -/
theorem inCategory_iff {bounds : List ℚ} {x : ℚ} {i : Nat} :
    inCategory bounds x i = true ↔ inCatProp bounds x i := by
  unfold inCategory inCatProp
  simp

/-- When all categories use the primary incidence column, the incidence
criterion of every category is the primary column. -/
theorem incCriterion_primary {cfg : Config} {i : Nat}
    (h : cfg.calcSecondary.getD i false = false) :
    incCriterion cfg i = .primary := by
  unfold incCriterion
  rw [h]
  rfl

/-- Raw-pool membership, specialized to primary-incidence categories. -/
theorem mem_rawPool_primary {table : List Entry} {bounds : List ℚ}
    {cfg : Config} {i : Nat} {e : Entry}
    (h : cfg.calcSecondary.getD i false = false) :
    e ∈ rawPool table bounds cfg i ↔
      e ∈ table ∧ inCatProp bounds e.primary i := by
  unfold rawPool
  rw [List.mem_filter, incCriterion_primary h, inCategory_iff]
  rfl

/-- Squeeze: if a value satisfies category `i`'s bound predicate and is at
least the lower bound of a later category `j`, then (bounds being
non-decreasing) it also satisfies category `j-1`'s bound predicate. -/
theorem inCatProp_pred {bounds : List ℚ} (hch : bounds.Chain' (· ≤ ·))
    {x : ℚ} {i j : Nat} (hij : i < j) (hjb : j + 1 < bounds.length)
    (hi : inCatProp bounds x i) (hj : bounds.getD j 0 ≤ x) :
    inCatProp bounds x (j - 1) := by
  rcases Nat.eq_or_lt_of_le (Nat.succ_le_of_lt hij) with hji | hji
  · have : j - 1 = i := by omega
    rw [this]
    exact hi
  · -- i + 1 < j : the bounds from i+1 to j are squeezed onto x
    have hxle : x ≤ bounds.getD (i + 1) 0 := by
      rcases hi.2 with h | h
      · exact le_of_lt h
      · exact le_of_eq h.2
    have h1 : bounds.getD (i + 1) 0 ≤ bounds.getD (j - 1) 0 :=
      bounds_mono hch (by omega) (by omega)
    have h2 : bounds.getD (j - 1) 0 ≤ bounds.getD j 0 :=
      bounds_mono hch (by omega) (by omega)
    have hx1 : x ≤ bounds.getD (j - 1) 0 := le_trans hxle h1
    have hx2 : bounds.getD (j - 1) 0 = x := le_antisymm (le_trans h2 hj) hx1
    have hj1 : j - 1 + 1 = j := by omega
    have hbj : bounds.getD (j - 1) 0 = bounds.getD j 0 :=
      le_antisymm h2 (le_trans hj hx1)
    have hxbj : x = bounds.getD j 0 := le_antisymm (le_trans hx1 h2) hj
    refine ⟨le_of_eq hx2, Or.inr ⟨?_, ?_⟩⟩
    · rw [hj1]
      exact hbj
    · rw [hj1]
      exact hxbj

/-- Length of the synthesized bounds list. -/
theorem adjustedBounds_length (cfg : Config) (table : List Entry) :
    (adjustedBounds cfg table).length = cfg.lowerBounds.length + 1 := by
  unfold adjustedBounds
  rw [List.length_append]
  rfl

/-- The synthesized final bound is `max(primary) + 1`. -/
theorem adjustedBounds_last (cfg : Config) (table : List Entry) :
    (adjustedBounds cfg table).getD cfg.lowerBounds.length 0 =
      listMax (table.map Entry.primary) + 1 := by
  unfold adjustedBounds
  rw [List.getD_eq_getElem _ _
    (by rw [List.length_append]; simp),
    List.getElem_append_right (le_refl _)]
  simp

/-- Final-pool membership of the constructed layout. -/
theorem mem_categorizedEntries {cfg : Config} {table : List Entry} {i : Nat}
    (hi : i < cfg.numCategories) {e : Entry} :
    e ∈ (categorizedEntries cfg table).getD i [] ↔
      e ∈ rawPool table (adjustedBounds cfg table) cfg i ∧
        (i = 0 ∨ e ∉ rawPool table (adjustedBounds cfg table) cfg (i - 1)) :=
  mem_categorize hi

/-- C1: for a valid configuration (at least one category, as many configured
lower bounds as categories, non-decreasing synthesized bounds, all
categories on the primary incidence column), after the tie-break pass the
pools are pairwise disjoint, every pooled row sits in the LOWEST raw
category that admits it (ties at a shared boundary go to the lower index),
and the union of the pools is exactly the set of table rows whose incidence
lies in `[bounds[0], bounds[N])`. -/
theorem categorize_partition_tiebreak
    (cfg : Config) (table : List Entry)
    (hn : 1 ≤ cfg.numCategories)
    (hlen : cfg.lowerBounds.length = cfg.numCategories)
    (hprim : ∀ i, i < cfg.numCategories → cfg.calcSecondary.getD i false = false)
    (hmono : (adjustedBounds cfg table).Chain' (· ≤ ·)) :
    (∀ i j, i < j → j < cfg.numCategories → ∀ e,
        e ∈ (categorizedEntries cfg table).getD i [] →
        e ∉ (categorizedEntries cfg table).getD j []) ∧
    (∀ j, j < cfg.numCategories → ∀ e,
        e ∈ (categorizedEntries cfg table).getD j [] →
        ∀ i, i < j → e ∉ rawPool table (adjustedBounds cfg table) cfg i) ∧
    (∀ e, e ∈ table →
        ((∃ i, i < cfg.numCategories ∧
            e ∈ (categorizedEntries cfg table).getD i []) ↔
          ((adjustedBounds cfg table).getD 0 0 ≤ e.primary ∧
            e.primary < (adjustedBounds cfg table).getD cfg.numCategories 0))) := by
  have hBlen : (adjustedBounds cfg table).length = cfg.numCategories + 1 := by
    rw [adjustedBounds_length, hlen]
  -- a shared squeeze step: a row of raw pool `i` whose incidence reaches
  -- bound `j` (`i < j < n`) also lies in raw pool `j - 1`
  have hsq : ∀ i j, i < j → j < cfg.numCategories → ∀ e : Entry,
      e ∈ rawPool table (adjustedBounds cfg table) cfg i →
      (adjustedBounds cfg table).getD j 0 ≤ e.primary →
      e ∈ rawPool table (adjustedBounds cfg table) cfg (j - 1) := by
    intro i j hij hj e hei hbj
    rw [mem_rawPool_primary (hprim i (lt_trans hij hj))] at hei
    rw [mem_rawPool_primary (hprim (j - 1) (by omega))]
    exact ⟨hei.1, inCatProp_pred hmono hij (by omega) hei.2 hbj⟩
  refine ⟨?_, ?_, ?_⟩
  · -- pairwise disjointness
    intro i j hij hj e hei hej
    rw [mem_categorizedEntries (lt_trans hij hj)] at hei
    rw [mem_categorizedEntries hj] at hej
    have hnot : e ∉ rawPool table (adjustedBounds cfg table) cfg (j - 1) := by
      rcases hej.2 with h | h
      · omega
      · exact h
    have hbj : (adjustedBounds cfg table).getD j 0 ≤ e.primary := by
      have := (mem_rawPool_primary (hprim j hj)).mp hej.1
      exact this.2.1
    exact hnot (hsq i j hij hj e hei.1 hbj)
  · -- ties go to the lowest admitting raw pool
    intro j hj e hej i hij
    intro hraw
    rw [mem_categorizedEntries hj] at hej
    have hnot : e ∉ rawPool table (adjustedBounds cfg table) cfg (j - 1) := by
      rcases hej.2 with h | h
      · omega
      · exact h
    have hbj : (adjustedBounds cfg table).getD j 0 ≤ e.primary := by
      have := (mem_rawPool_primary (hprim j hj)).mp hej.1
      exact this.2.1
    exact hnot (hsq i j hij hj e hraw hbj)
  · -- union = rows with incidence in the configured range
    intro e he
    constructor
    · rintro ⟨i, hi, hmem⟩
      rw [mem_categorizedEntries hi] at hmem
      have hprop := (mem_rawPool_primary (hprim i hi)).mp hmem.1
      constructor
      · exact le_trans (bounds_mono hmono (Nat.zero_le i) (by omega)) hprop.2.1
      · have hx : e.primary ≤ listMax (table.map Entry.primary) :=
          le_listMax (List.mem_map_of_mem Entry.primary he)
        have hlast : (adjustedBounds cfg table).getD cfg.numCategories 0 =
            listMax (table.map Entry.primary) + 1 := by
          rw [← hlen]
          exact adjustedBounds_last cfg table
        rw [hlast]
        exact lt_of_le_of_lt hx (by linarith)
    · rintro ⟨h0, hn'⟩
      -- the greatest index whose lower bound is below the incidence admits e
      have hPi : (adjustedBounds cfg table).getD
          (Nat.findGreatest
            (fun k => (adjustedBounds cfg table).getD k 0 ≤ e.primary)
            (cfg.numCategories - 1)) 0 ≤ e.primary :=
        Nat.findGreatest_spec
          (P := fun k => (adjustedBounds cfg table).getD k 0 ≤ e.primary)
          (Nat.zero_le _) h0
      have hile : Nat.findGreatest
          (fun k => (adjustedBounds cfg table).getD k 0 ≤ e.primary)
          (cfg.numCategories - 1) ≤ cfg.numCategories - 1 :=
        Nat.findGreatest_le _
      have hcat : inCatProp (adjustedBounds cfg table) e.primary
          (Nat.findGreatest
            (fun k => (adjustedBounds cfg table).getD k 0 ≤ e.primary)
            (cfg.numCategories - 1)) := by
        refine ⟨hPi, ?_⟩
        by_cases hlast : Nat.findGreatest
            (fun k => (adjustedBounds cfg table).getD k 0 ≤ e.primary)
            (cfg.numCategories - 1) = cfg.numCategories - 1
        · left
          rw [hlast, show cfg.numCategories - 1 + 1 = cfg.numCategories by omega]
          exact hn'
        · left
          have hgr := Nat.findGreatest_is_greatest
            (P := fun k => (adjustedBounds cfg table).getD k 0 ≤ e.primary)
            (n := cfg.numCategories - 1)
            (Nat.lt_succ_self _) (by omega)
          exact lt_of_not_le hgr
      have hex : ∃ k, k < cfg.numCategories ∧
          inCategory (adjustedBounds cfg table) e.primary k = true :=
        ⟨_, by omega, inCategory_iff.mpr hcat⟩
      refine ⟨Nat.find hex, (Nat.find_spec hex).1, ?_⟩
      rw [mem_categorizedEntries (Nat.find_spec hex).1,
        mem_rawPool_primary (hprim _ (Nat.find_spec hex).1)]
      refine ⟨⟨he, inCategory_iff.mp (Nat.find_spec hex).2⟩, ?_⟩
      by_cases hz : Nat.find hex = 0
      · exact Or.inl hz
      · right
        intro hmem
        have hprop := (mem_rawPool_primary
          (hprim (Nat.find hex - 1) (by
            have := (Nat.find_spec hex).1
            omega))).mp hmem
        exact Nat.find_min hex (show Nat.find hex - 1 < Nat.find hex by omega)
          ⟨by have := (Nat.find_spec hex).1; omega,
            inCategory_iff.mpr hprop.2⟩

/-- Concrete rows and configuration used by the witnesses. -/
def eW1 : Entry := ⟨"Alpha", "1000", 10, 0, 0⟩

def eW2 : Entry := ⟨"Beta", "2000", 0, 7, 3⟩

def cfgW : Config := ⟨2, [0, 5], [false, false], 12, 2, 9/100, 3/50, (-3/40, 43/40)⟩

def tableW : List Entry := [eW1, eW2]

/-- Witness for C1 at a concrete two-row table and two-category config. -/
theorem categorize_partition_tiebreak_witness :
    (1 ≤ cfgW.numCategories ∧
      cfgW.lowerBounds.length = cfgW.numCategories ∧
      (∀ i, i < cfgW.numCategories → cfgW.calcSecondary.getD i false = false) ∧
      (adjustedBounds cfgW tableW).Chain' (· ≤ ·)) ∧
    ((∀ i j, i < j → j < cfgW.numCategories → ∀ e,
        e ∈ (categorizedEntries cfgW tableW).getD i [] →
        e ∉ (categorizedEntries cfgW tableW).getD j []) ∧
    (∀ j, j < cfgW.numCategories → ∀ e,
        e ∈ (categorizedEntries cfgW tableW).getD j [] →
        ∀ i, i < j → e ∉ rawPool tableW (adjustedBounds cfgW tableW) cfgW i) ∧
    (∀ e, e ∈ tableW →
        ((∃ i, i < cfgW.numCategories ∧
            e ∈ (categorizedEntries cfgW tableW).getD i []) ↔
          ((adjustedBounds cfgW tableW).getD 0 0 ≤ e.primary ∧
            e.primary < (adjustedBounds cfgW tableW).getD cfgW.numCategories 0)))) := by
  have hb : adjustedBounds cfgW tableW = [0, 5, 8] := by
    norm_num [adjustedBounds, tableW, cfgW, eW1, eW2, listMax]
  have hch : (adjustedBounds cfgW tableW).Chain' (· ≤ ·) := by
    rw [hb]
    simp only [List.chain'_cons, List.chain'_singleton, and_true]
    norm_num
  exact ⟨⟨by decide, by decide, by decide, hch⟩,
    categorize_partition_tiebreak cfgW tableW (by decide) (by decide)
      (by decide) hch⟩

/-! ### Ratios (C5) -/

/-- The per-row membership test of the final pool `i`: in raw category `i`
and (for `i ≥ 1`) not in raw category `i-1`. -/
def poolPred (bounds : List ℚ) (cfg : Config) (i : Nat) (e : Entry) : Bool :=
  if 1 ≤ i then
    inCategory bounds ((incCriterion cfg i).val e) i &&
      !inCategory bounds ((incCriterion cfg (i - 1)).val e) (i - 1)
  else inCategory bounds ((incCriterion cfg i).val e) i

/-- The length of the pool list is the number of categories. -/
theorem foldl_removeOverlap_length (js : List Nat)
    (pools : List (List Entry)) :
    (js.foldl removeOverlap pools).length = pools.length := by
  induction js generalizing pools with
  | nil => rfl
  | cons j rest ih =>
    rw [List.foldl_cons, ih]
    unfold removeOverlap
    exact List.length_set pools j _

/-- The function `categorize` produces one pool per category. -/
theorem categorize_length (table : List Entry) (bounds : List ℚ)
    (cfg : Config) (n : Nat) : (categorize table bounds cfg n).length = n := by
  unfold categorize
  rw [foldl_removeOverlap_length, List.length_map, List.length_range]

/-- Each final pool is the table filtered by its per-row membership test. -/
theorem categorize_getD_eq_filter (table : List Entry) (bounds : List ℚ)
    (cfg : Config) (n i : Nat) (hi : i < n) :
    (categorize table bounds cfg n).getD i [] =
      table.filter (poolPred bounds cfg i) := by
  rw [categorize_getD table bounds cfg n i hi]
  unfold poolPred
  by_cases h1 : 1 ≤ i
  · simp only [if_pos h1]
    unfold rawPool
    rw [List.filter_filter]
    apply List.filter_congr
    intro x hx
    have hdec : decide (x ∈ List.filter
        (fun e => inCategory bounds ((incCriterion cfg (i - 1)).val e) (i - 1))
        table) = inCategory bounds ((incCriterion cfg (i - 1)).val x) (i - 1) := by
      cases hp : inCategory bounds ((incCriterion cfg (i - 1)).val x) (i - 1) with
      | true => simp [List.mem_filter, hx, hp]
      | false => simp [List.mem_filter, hx, hp]
    rw [hdec]
    rw [Bool.and_comm]
  · simp only [if_neg h1]
    rfl

/-- Sum of a mapped division is the division of the mapped sum. -/
theorem sum_map_div {α : Type} (l : List α) (f : α → ℚ) (c : ℚ) :
    (l.map (fun x => f x / c)).sum = (l.map f).sum / c := by
  induction l with
  | nil => simp
  | cons x xs ih => simp [ih, add_div]

/-- Sum of mapped casts is the cast of the mapped sum. -/
theorem sum_map_natCast {α : Type} (l : List α) (f : α → Nat) :
    (l.map (fun x => (f x : ℚ))).sum = (((l.map f).sum : Nat) : ℚ) := by
  induction l with
  | nil => simp
  | cons x xs ih => simp [ih]

/-- Pointwise sum splitting over a mapped list of naturals. -/
theorem sum_map_add_nat {α : Type} (l : List α) (f g : α → Nat) :
    (l.map (fun x => f x + g x)).sum = (l.map f).sum + (l.map g).sum := by
  induction l with
  | nil => rfl
  | cons x xs ih =>
    simp only [List.map_cons, List.sum_cons, ih]
    omega

/-- A sum of indicator values counts the satisfying elements. -/
theorem sum_map_ite_count {α : Type} (l : List α) (p : α → Bool) :
    (l.map (fun x => if p x then (1 : Nat) else 0)).sum = l.countP p := by
  induction l with
  | nil => rfl
  | cons x xs ih =>
    rw [List.map_cons, List.sum_cons, List.countP_cons, ih]
    by_cases h : p x
    · simp [h]
      omega
    · simp [h]

/-- A predicate holding at exactly one element of a duplicate-free list is
counted once. -/
theorem countP_eq_one_of_unique {l : List Nat} (hnd : l.Nodup) (p : Nat → Bool)
    (i : Nat) (hi : i ∈ l) (hp : p i = true)
    (huniq : ∀ j ∈ l, p j = true → j = i) : l.countP p = 1 := by
  induction l with
  | nil => cases hi
  | cons a t ih =>
    have hnd' : t.Nodup := (List.nodup_cons.mp hnd).2
    have hat : a ∉ t := (List.nodup_cons.mp hnd).1
    rw [List.countP_cons]
    by_cases hpa : p a = true
    · have hai : a = i := huniq a (List.mem_cons_self a t) hpa
      have hz : t.countP p = 0 := by
        rw [List.countP_eq_zero]
        intro j hj hpj
        have := huniq j (List.mem_cons_of_mem a hj) hpj
        rw [this, ← hai] at hj
        exact hat hj
      rw [hz]
      simp [hpa]
    · have hit : i ∈ t := by
        rcases List.mem_cons.mp hi with h | h
        · rw [h] at hp
          exact absurd hp hpa
        · exact h
      rw [ih hnd' hit (fun j hj hpj => huniq j (List.mem_cons_of_mem a hj) hpj)]
      simp [hpa]

/-- If every table row passes exactly one of the per-category tests, the
filtered lengths add up to the table length. -/
theorem sum_filter_lengths {α : Type} (table : List α) (n : Nat)
    (q : Nat → α → Bool)
    (h : ∀ e ∈ table, (List.range n).countP (fun i => q i e) = 1) :
    ((List.range n).map (fun i => (table.filter (q i)).length)).sum =
      table.length := by
  induction table with
  | nil => simp
  | cons e t ih =>
    have hsplit : ∀ i : Nat, ((e :: t).filter (q i)).length =
        (t.filter (q i)).length + (if q i e then 1 else 0) := by
      intro i
      rw [List.filter_cons]
      by_cases hq : q i e
      · simp [hq]
      · simp [hq]
    have hmapeq : (List.range n).map (fun i => ((e :: t).filter (q i)).length) =
        (List.range n).map (fun i =>
          (t.filter (q i)).length + (if q i e then 1 else 0)) :=
      List.map_congr_left (fun i _ => hsplit i)
    rw [hmapeq, sum_map_add_nat, sum_map_ite_count,
      ih (fun x hx => h x (List.mem_cons_of_mem e hx)),
      h e (List.mem_cons_self e t)]
    rfl

/-- The final-pool membership test, as a proposition (primary-incidence
categories). -/
theorem poolPred_iff {bounds : List ℚ} {cfg : Config} {n i : Nat}
    (hi : i < n)
    (hprim : ∀ k, k < n → cfg.calcSecondary.getD k false = false)
    (e : Entry) :
    poolPred bounds cfg i e = true ↔
      inCatProp bounds e.primary i ∧
        (i = 0 ∨ ¬inCatProp bounds e.primary (i - 1)) := by
  unfold poolPred
  by_cases h1 : 1 ≤ i
  · simp only [if_pos h1, Bool.and_eq_true, Bool.not_eq_true',
      incCriterion_primary (hprim i hi),
      incCriterion_primary (hprim (i - 1) (by omega))]
    show (inCategory bounds e.primary i = true ∧
        inCategory bounds e.primary (i - 1) = false) ↔ _
    rw [inCategory_iff]
    constructor
    · rintro ⟨ha, hb⟩
      refine ⟨ha, Or.inr ?_⟩
      intro hcontra
      rw [inCategory_iff.mpr hcontra] at hb
      cases hb
    · rintro ⟨ha, hb | hb⟩
      · omega
      · refine ⟨ha, ?_⟩
        cases hx : inCategory bounds e.primary (i - 1) with
        | true => exact absurd (inCategory_iff.mp hx) hb
        | false => rfl
  · have hz : i = 0 := by omega
    subst hz
    simp only [if_neg h1, incCriterion_primary (hprim 0 hi)]
    show inCategory bounds e.primary 0 = true ↔ _
    rw [inCategory_iff]
    exact ⟨fun h => ⟨h, Or.inl (by trivial)⟩, fun h => h.1⟩

/-- At most one final pool admits a given row. -/
theorem poolPred_unique {bounds : List ℚ} {cfg : Config} {n : Nat}
    (hch : bounds.Chain' (· ≤ ·)) (hBlen : bounds.length = n + 1)
    (hprim : ∀ k, k < n → cfg.calcSecondary.getD k false = false)
    {e : Entry} {j1 j2 : Nat} (h12 : j1 < j2) (hj2 : j2 < n)
    (hp1 : poolPred bounds cfg j1 e = true)
    (hp2 : poolPred bounds cfg j2 e = true) : False := by
  rw [poolPred_iff (lt_trans h12 hj2) hprim] at hp1
  rw [poolPred_iff hj2 hprim] at hp2
  have hnot : ¬inCatProp bounds e.primary (j2 - 1) := by
    rcases hp2.2 with h | h
    · omega
    · exact h
  exact hnot (inCatProp_pred hch h12 (by omega) hp1.1 hp2.1.1)

/-- Every row whose incidence is in `[bounds[0], bounds[N])` lands in some
final pool (the lowest raw pool admitting it). -/
theorem poolPred_exists {bounds : List ℚ} {cfg : Config} {n : Nat}
    (hprim : ∀ k, k < n → cfg.calcSecondary.getD k false = false)
    (hn : 1 ≤ n) {e : Entry}
    (h0 : bounds.getD 0 0 ≤ e.primary)
    (hup : e.primary < bounds.getD n 0) :
    ∃ k, k < n ∧ poolPred bounds cfg k e = true := by
  have hPi : bounds.getD
      (Nat.findGreatest (fun k => bounds.getD k 0 ≤ e.primary) (n - 1)) 0 ≤
        e.primary :=
    Nat.findGreatest_spec (P := fun k => bounds.getD k 0 ≤ e.primary)
      (Nat.zero_le _) h0
  have hile : Nat.findGreatest (fun k => bounds.getD k 0 ≤ e.primary) (n - 1) ≤
      n - 1 := Nat.findGreatest_le _
  have hcat : inCatProp bounds e.primary
      (Nat.findGreatest (fun k => bounds.getD k 0 ≤ e.primary) (n - 1)) := by
    refine ⟨hPi, ?_⟩
    by_cases hlast : Nat.findGreatest (fun k => bounds.getD k 0 ≤ e.primary)
        (n - 1) = n - 1
    · left
      rw [hlast, show n - 1 + 1 = n by omega]
      exact hup
    · left
      have hgr := Nat.findGreatest_is_greatest
        (P := fun k => bounds.getD k 0 ≤ e.primary) (n := n - 1)
        (Nat.lt_succ_self _) (by omega)
      exact lt_of_not_le hgr
  have hex : ∃ k, k < n ∧ inCategory bounds e.primary k = true :=
    ⟨_, by omega, inCategory_iff.mpr hcat⟩
  refine ⟨Nat.find hex, (Nat.find_spec hex).1, ?_⟩
  rw [poolPred_iff (Nat.find_spec hex).1 hprim]
  refine ⟨inCategory_iff.mp (Nat.find_spec hex).2, ?_⟩
  by_cases hz : Nat.find hex = 0
  · exact Or.inl hz
  · right
    intro hcontra
    exact Nat.find_min hex (show Nat.find hex - 1 < Nat.find hex by omega)
      ⟨by have := (Nat.find_spec hex).1; omega, inCategory_iff.mpr hcontra⟩

/-- C5 (amended): when the table is non-empty and — in addition to the
claim — every row's incidence is at least `bounds[0]` (so that no row falls
below every category), the ratios sum to exactly 1. -/
theorem ratios_sum_one (cfg : Config) (table : List Entry)
    (hn : 1 ≤ cfg.numCategories)
    (hlen : cfg.lowerBounds.length = cfg.numCategories)
    (htab : table ≠ [])
    (hprim : ∀ i, i < cfg.numCategories → cfg.calcSecondary.getD i false = false)
    (hmono : (adjustedBounds cfg table).Chain' (· ≤ ·))
    (hcov : ∀ e ∈ table, (adjustedBounds cfg table).getD 0 0 ≤ e.primary) :
    (ratiosOf cfg table).sum = 1 := by
  have hBlen : (adjustedBounds cfg table).length = cfg.numCategories + 1 := by
    rw [adjustedBounds_length, hlen]
  have hup : ∀ e ∈ table,
      e.primary < (adjustedBounds cfg table).getD cfg.numCategories 0 := by
    intro e he
    have hx : e.primary ≤ listMax (table.map Entry.primary) :=
      le_listMax (List.mem_map_of_mem Entry.primary he)
    have hlast : (adjustedBounds cfg table).getD cfg.numCategories 0 =
        listMax (table.map Entry.primary) + 1 := by
      rw [← hlen]
      exact adjustedBounds_last cfg table
    rw [hlast]
    exact lt_of_le_of_lt hx (by linarith)
  have hcount : ∀ e ∈ table,
      (List.range cfg.numCategories).countP
        (fun i => poolPred (adjustedBounds cfg table) cfg i e) = 1 := by
    intro e he
    obtain ⟨k, hk, hpk⟩ := poolPred_exists hprim hn (hcov e he)
      (hup e he)
    refine countP_eq_one_of_unique (List.nodup_range _) _ k
      (List.mem_range.mpr hk) hpk ?_
    intro j hj hpj
    rcases lt_trichotomy j k with h | h | h
    · exact absurd (poolPred_unique hmono hBlen hprim h hk hpj hpk) not_false
    · exact h
    · exact absurd
        (poolPred_unique hmono hBlen hprim h (List.mem_range.mp hj) hpk hpj)
        not_false
  have hpools : categorizedEntries cfg table =
      (List.range cfg.numCategories).map
        (fun i => table.filter (poolPred (adjustedBounds cfg table) cfg i)) := by
    unfold categorizedEntries
    apply List.ext_getElem
    · rw [List.length_map, List.length_range]
      exact categorize_length table (adjustedBounds cfg table) cfg
        cfg.numCategories
    · intro i h1 h2
      have hi : i < cfg.numCategories := by
        rw [List.length_map, List.length_range] at h2
        exact h2
      rw [← List.getD_eq_getElem _ [] h1, ← List.getD_eq_getElem _ [] h2]
      rw [categorize_getD_eq_filter table (adjustedBounds cfg table) cfg
        cfg.numCategories i hi]
      rw [List.getD_eq_getElem?_getD, List.getElem?_map,
        List.getElem?_range hi]
      rfl
  unfold ratiosOf calculateRatios
  rw [hpools, List.map_map]
  have heq : ((List.range cfg.numCategories).map
      ((fun p : List Entry => (p.length : ℚ) / (table.length : ℚ)) ∘
        (fun i => table.filter (poolPred (adjustedBounds cfg table) cfg i)))) =
      (List.range cfg.numCategories).map (fun i =>
        (((table.filter (poolPred (adjustedBounds cfg table) cfg i)).length : ℚ)) /
          (table.length : ℚ)) := rfl
  rw [heq, sum_map_div, sum_map_natCast,
    sum_filter_lengths table cfg.numCategories _ hcount]
  have hne : ((table.length : ℚ)) ≠ 0 := by
    rw [Nat.cast_ne_zero]
    intro h
    exact htab (List.length_eq_zero.mp h)
  exact div_self hne

/-- A one-row table whose row lies below the configured `bounds[0]`. -/
def cfgC5 : Config := ⟨1, [1], [false], 12, 2, 9/100, 3/50, (-3/40, 43/40)⟩

def tableC5 : List Entry := [eW1]

/-- Counterexample to C5 as stated: the table is non-empty (and the
configuration valid: one category, non-decreasing bounds), yet the ratios do
not sum to 1, because the single row's incidence `0` is below
`bounds[0] = 1` and lands in no pool. -/
theorem ratios_sum_cex :
    0 < tableC5.length ∧
      (adjustedBounds cfgC5 tableC5).Chain' (· ≤ ·) ∧
      (ratiosOf cfgC5 tableC5).sum ≠ 1 := by
  have hb : adjustedBounds cfgC5 tableC5 = [1, 1] := by
    norm_num [adjustedBounds, tableC5, cfgC5, eW1, listMax]
  refine ⟨by norm_num [tableC5], ?_, ?_⟩
  · rw [hb]
    simp only [List.chain'_cons, List.chain'_singleton, and_true]
    norm_num
  · have hpool : rawPool tableC5 (adjustedBounds cfgC5 tableC5) cfgC5 0 = [] := by
      rw [hb]
      unfold rawPool tableC5
      simp only [List.filter_cons, List.filter_nil]
      norm_num [inCategory, incCriterion, cfgC5, Criterion.val, eW1]
    have hcat : categorizedEntries cfgC5 tableC5 = [[]] := by
      unfold categorizedEntries categorize
      have h0 : (List.range' 1 (cfgC5.numCategories - 1)).reverse = [] := rfl
      rw [h0, List.foldl_nil]
      have h1 : List.range cfgC5.numCategories = [0] := rfl
      rw [h1, List.map_cons, List.map_nil, hpool]
    have hr : ratiosOf cfgC5 tableC5 = [0] := by
      unfold ratiosOf calculateRatios
      rw [hcat]
      norm_num [tableC5]
    rw [hr]
    norm_num

/-- Witness for the amended C5 at the concrete two-row table. -/
theorem ratios_sum_one_witness :
    (1 ≤ cfgW.numCategories ∧
      cfgW.lowerBounds.length = cfgW.numCategories ∧
      tableW ≠ [] ∧
      (∀ i, i < cfgW.numCategories → cfgW.calcSecondary.getD i false = false) ∧
      (adjustedBounds cfgW tableW).Chain' (· ≤ ·) ∧
      (∀ e ∈ tableW, (adjustedBounds cfgW tableW).getD 0 0 ≤ e.primary)) ∧
    (ratiosOf cfgW tableW).sum = 1 := by
  have hb : adjustedBounds cfgW tableW = [0, 5, 8] := by
    norm_num [adjustedBounds, tableW, cfgW, eW1, eW2, listMax]
  have hch : (adjustedBounds cfgW tableW).Chain' (· ≤ ·) := by
    rw [hb]
    simp only [List.chain'_cons, List.chain'_singleton, and_true]
    norm_num
  have hcov : ∀ e ∈ tableW, (adjustedBounds cfgW tableW).getD 0 0 ≤ e.primary := by
    intro e he
    rw [hb]
    rcases List.mem_cons.mp he with h | h
    · rw [h]
      norm_num [eW1]
    · rcases List.mem_cons.mp h with h' | h'
      · rw [h']
        norm_num [eW2]
      · cases h'
  exact ⟨⟨by decide, by decide, by decide, by decide, hch, hcov⟩,
    ratios_sum_one cfgW tableW (by decide) (by decide) (by decide) (by decide)
      hch hcov⟩

/-! ### Display selector (C3) -/

/-- Source `sort_values` on a column: a stable sort by the key, ascending or
descending. -/
def sortEntries (key : Entry → ℚ) (asc : Bool) (l : List Entry) : List Entry :=
  if asc then l.insertionSort (fun a b => key a ≤ key b)
  else l.insertionSort (fun a b => key b ≤ key a)

/-- Source `__get_num_display_regions_for_category__` (lines 246-247). -/
def numDisplayRegions (cfg : Config) (r : ℚ) : Nat :=
  max (Nat.floor ((cfg.totalDisplay : ℚ) * r)) cfg.minDisplay

/-- Line 251-253: ascending unless the category sorts by the time-safe
column. -/
def sortAscending (cfg : Config) (i : Nat) : Bool :=
  !decide (sortCriteria cfg i = Criterion.timeSafe)

/-- One category of `__build_display_regions__` (lines 255-263): sort the
pool, take the head of the display count, and when the pool is strictly
larger replace the last taken row by the sorted pool's last row. -/
def buildDisplayRegion (pool : List Entry) (key : Entry → ℚ) (asc : Bool)
    (dc : Nat) : List Entry :=
  let sorted := sortEntries key asc pool
  let headPart := sorted.take dc
  if dc < sorted.length then
    headPart.dropLast ++ sorted.drop (sorted.length - 1)
  else headPart

/-- Source `__build_display_regions__` over all categories. -/
def buildDisplayRegions (cfg : Config) (pools : List (List Entry))
    (shares : List ℚ) : List (List Entry) :=
  (List.range cfg.numCategories).map (fun i =>
    buildDisplayRegion (pools.getD i []) ((sortCriteria cfg i).val)
      (sortAscending cfg i) (numDisplayRegions cfg (shares.getD i 0)))

/-- Sorting preserves the length. -/
theorem sortEntries_length (key : Entry → ℚ) (asc : Bool) (l : List Entry) :
    (sortEntries key asc l).length = l.length := by
  unfold sortEntries
  by_cases h : asc
  · rw [if_pos h]
    exact (List.perm_insertionSort _ l).length_eq
  · rw [if_neg h]
    exact (List.perm_insertionSort _ l).length_eq

/-- Dropping the last element of a prefix shortens the prefix by one. -/
theorem dropLast_take {α : Type} (l : List α) (n : Nat) (h : n ≤ l.length) :
    (l.take n).dropLast = l.take (n - 1) := by
  rw [List.dropLast_eq_take, List.take_take, List.length_take]
  congr 1
  omega

/-- C3 (amended): provided the computed display count
`max(floor(total_display_regions * ratio), min_display_regions)` is at least
1 (in particular whenever `min_display_regions ≥ 1`), the selected DisplaySet
has size `min(display_count, |pool|)` — hence at least
`min(min_display_regions, |pool|)` and at most `|pool|` — and when the pool
is strictly larger than the display count it is the first
`display_count - 1` sorted rows followed by the sorted pool's last row. -/
theorem displaySet_size_selection (cfg : Config) (pool : List Entry)
    (key : Entry → ℚ) (asc : Bool) (r : ℚ)
    (hdc : 1 ≤ numDisplayRegions cfg r) :
    ((buildDisplayRegion pool key asc (numDisplayRegions cfg r)).length =
      min (numDisplayRegions cfg r) pool.length) ∧
    (min cfg.minDisplay pool.length ≤
        (buildDisplayRegion pool key asc (numDisplayRegions cfg r)).length ∧
      (buildDisplayRegion pool key asc (numDisplayRegions cfg r)).length ≤
        pool.length) ∧
    (numDisplayRegions cfg r < pool.length →
      buildDisplayRegion pool key asc (numDisplayRegions cfg r) =
        (sortEntries key asc pool).take (numDisplayRegions cfg r - 1) ++
          (sortEntries key asc pool).drop (pool.length - 1)) := by
  have hslen : (sortEntries key asc pool).length = pool.length :=
    sortEntries_length key asc pool
  have hsize : (buildDisplayRegion pool key asc
      (numDisplayRegions cfg r)).length =
      min (numDisplayRegions cfg r) pool.length := by
    unfold buildDisplayRegion
    by_cases hlt : numDisplayRegions cfg r < (sortEntries key asc pool).length
    · rw [if_pos hlt, List.length_append, List.length_dropLast,
        List.length_take, List.length_drop, hslen]
      rw [hslen] at hlt
      omega
    · rw [if_neg hlt, List.length_take, hslen]
  refine ⟨hsize, ⟨?_, ?_⟩, ?_⟩
  · rw [hsize]
    have : cfg.minDisplay ≤ numDisplayRegions cfg r := le_max_right _ _
    omega
  · rw [hsize]
    omega
  · intro hlt
    unfold buildDisplayRegion
    rw [if_pos (by rw [hslen]; exact hlt), hslen]
    rw [dropLast_take _ _ (by rw [hslen]; omega)]

/-- A one-row, one-category setup where the computed display count is 0:
`total_display_regions = 0` and `min_display_regions = 0`. -/
def cfgC3 : Config := ⟨1, [0], [false], 0, 0, 9/100, 3/50, (-3/40, 43/40)⟩

def tableC3 : List Entry := [eW1]

/-- Counterexample to C3 as stated: with display count 0 and a non-empty
pool the produced DisplaySet has size 1 (the worst-row replacement still
appends one row), not `min(display_count, |pool|) = 0`. -/
theorem displaySet_size_cex :
    ((buildDisplayRegions cfgC3 (categorizedEntries cfgC3 tableC3)
        (ratiosOf cfgC3 tableC3)).getD 0 []).length = 1 ∧
      min (numDisplayRegions cfgC3 ((ratiosOf cfgC3 tableC3).getD 0 0))
        ((categorizedEntries cfgC3 tableC3).getD 0 []).length = 0 := by
  have hb : adjustedBounds cfgC3 tableC3 = [0, 1] := by
    norm_num [adjustedBounds, tableC3, cfgC3, eW1, listMax]
  have hpool : rawPool tableC3 (adjustedBounds cfgC3 tableC3) cfgC3 0 =
      [eW1] := by
    rw [hb]
    unfold rawPool tableC3
    simp only [List.filter_cons, List.filter_nil]
    norm_num [inCategory, incCriterion, cfgC3, Criterion.val, eW1]
  have hcat : categorizedEntries cfgC3 tableC3 = [[eW1]] := by
    unfold categorizedEntries categorize
    have h0 : (List.range' 1 (cfgC3.numCategories - 1)).reverse = [] := rfl
    rw [h0, List.foldl_nil]
    have h1 : List.range cfgC3.numCategories = [0] := rfl
    rw [h1, List.map_cons, List.map_nil, hpool]
  have hrat : ratiosOf cfgC3 tableC3 = [1] := by
    unfold ratiosOf calculateRatios
    rw [hcat]
    norm_num [tableC3, eW1]
  have hdc : numDisplayRegions cfgC3 ((ratiosOf cfgC3 tableC3).getD 0 0) = 0 := by
    rw [hrat]
    norm_num [numDisplayRegions, cfgC3]
  constructor
  · unfold buildDisplayRegions
    rw [hcat]
    have h1 : List.range cfgC3.numCategories = [0] := rfl
    rw [h1, List.map_cons, List.map_nil, hdc]
    rfl
  · rw [hdc, hcat]
    rfl

/-- Witness for the amended C3: a two-row pool with the default display
counts (display count `max(⌊12 * (1/2)⌋, 2) = 6 ≥ 1`). -/
theorem displaySet_size_selection_witness :
    1 ≤ numDisplayRegions cfgW (1/2) ∧
    (((buildDisplayRegion tableW Entry.primary true
          (numDisplayRegions cfgW (1/2))).length =
        min (numDisplayRegions cfgW (1/2)) tableW.length) ∧
      (min cfgW.minDisplay tableW.length ≤
          (buildDisplayRegion tableW Entry.primary true
            (numDisplayRegions cfgW (1/2))).length ∧
        (buildDisplayRegion tableW Entry.primary true
            (numDisplayRegions cfgW (1/2))).length ≤ tableW.length) ∧
      (numDisplayRegions cfgW (1/2) < tableW.length →
        buildDisplayRegion tableW Entry.primary true
            (numDisplayRegions cfgW (1/2)) =
          (sortEntries Entry.primary true tableW).take
              (numDisplayRegions cfgW (1/2) - 1) ++
            (sortEntries Entry.primary true tableW).drop
              (tableW.length - 1))) := by
  have hdc : numDisplayRegions cfgW (1/2) = 6 := by
    have hfl : Nat.floor ((12 : ℚ) * (1/2)) = 6 := by
      norm_num
    norm_num [numDisplayRegions, cfgW, hfl]
  refine ⟨by rw [hdc]; omega, ?_⟩
  exact displaySet_size_selection cfgW tableW Entry.primary true (1/2)
    (by rw [hdc]; omega)

/-! ### Search injector (C4, C8) -/

/-- Python `str.isnumeric` for the queries the engine sees: non-empty and
all digits. -/
def isNumericStr (s : String) : Bool :=
  !(s.toList.isEmpty) && s.toList.all Char.isDigit

/-- Line 269: numeric queries look up the postcode column, others the
region-name column. -/
def searchField (q : String) (e : Entry) : String :=
  if isNumericStr q then e.postcode else e.region

/-- The rows of a pool (or DisplaySet) whose lookup field equals the query
(lines 271-272 and 275). -/
def searchMatches (q : String) (l : List Entry) : List Entry :=
  l.filter (fun e => decide (searchField q e = q))

/-- Line 277-279: re-sort a DisplaySet by the category's criterion,
ascending exactly when the criterion is the category's incidence column. -/
def resortDisplay (cfg : Config) (i : Nat) (l : List Entry) : List Entry :=
  sortEntries ((sortCriteria cfg i).val)
    (decide (sortCriteria cfg i = incCriterion cfg i)) l

/-- The category scan of `__add_searched_region__` (lines 270-280): at the
first category whose pool has a match while its DisplaySet does not, append
the matching rows, re-sort, and stop. -/
def addSearchedLoop (cfg : Config) (pools : List (List Entry)) (q : String)
    (displays : List (List Entry)) : List Nat → List (List Entry)
  | [] => displays
  | i :: rest =>
    if q ≠ "" ∧ searchMatches q (pools.getD i []) ≠ [] ∧
        searchMatches q (displays.getD i []) = [] then
      displays.set i (resortDisplay cfg i
        (displays.getD i [] ++ searchMatches q (pools.getD i [])))
    else addSearchedLoop cfg pools q displays rest

/-- Source `__add_searched_region__` scans the categories in index order. -/
def addSearchedRegion (cfg : Config) (pools displays : List (List Entry))
    (q : String) : List (List Entry) :=
  addSearchedLoop cfg pools q displays (List.range cfg.numCategories)

/-- When no visited category has an undisplayed match, the loop is a no-op. -/
theorem addSearchedLoop_noop (cfg : Config) (pools : List (List Entry))
    (q : String) (displays : List (List Entry)) (js : List Nat)
    (h : ∀ i ∈ js, ¬(q ≠ "" ∧ searchMatches q (pools.getD i []) ≠ [] ∧
        searchMatches q (displays.getD i []) = [])) :
    addSearchedLoop cfg pools q displays js = displays := by
  induction js with
  | nil => rfl
  | cons i rest ih =>
    unfold addSearchedLoop
    rw [if_neg (h i (List.mem_cons_self i rest))]
    exact ih (fun j hj => h j (List.mem_cons_of_mem i hj))

/-- C8: the search operation is total, and whenever every category either
has no pool row matching the query or already displays a matching row (in
particular when nothing matches anywhere, or the matching row is already in
its category's DisplaySet, or the query is empty), every DisplaySet is left
unchanged. -/
theorem search_noop (cfg : Config) (pools displays : List (List Entry))
    (q : String)
    (h : q = "" ∨ ∀ i, i < cfg.numCategories →
        (searchMatches q (pools.getD i []) = [] ∨
          searchMatches q (displays.getD i []) ≠ [])) :
    addSearchedRegion cfg pools displays q = displays := by
  unfold addSearchedRegion
  apply addSearchedLoop_noop
  intro i hi
  rcases h with h | h
  · rintro ⟨hne, -, -⟩
    exact hne h
  · rintro ⟨-, hp, hd⟩
    rcases h i (List.mem_range.mp hi) with h' | h'
    · exact hp h'
    · exact h' hd

/-- The loop over a window of consecutive indices either rewrites the first
eligible category of the window and keeps everything else, or finds no
eligible category and changes nothing. -/
theorem addSearchedLoop_range' (cfg : Config) (pools : List (List Entry))
    (q : String) (displays : List (List Entry)) (hq : q ≠ "") (m s : Nat) :
    (∃ k, s ≤ k ∧ k < s + m ∧
        searchMatches q (pools.getD k []) ≠ [] ∧
        searchMatches q (displays.getD k []) = [] ∧
        (∀ j, s ≤ j → j < k →
          ¬(searchMatches q (pools.getD j []) ≠ [] ∧
            searchMatches q (displays.getD j []) = [])) ∧
        addSearchedLoop cfg pools q displays (List.range' s m) =
          displays.set k (resortDisplay cfg k
            (displays.getD k [] ++ searchMatches q (pools.getD k [])))) ∨
    ((∀ i, s ≤ i → i < s + m →
        ¬(searchMatches q (pools.getD i []) ≠ [] ∧
          searchMatches q (displays.getD i []) = [])) ∧
      addSearchedLoop cfg pools q displays (List.range' s m) = displays) := by
  induction m generalizing s with
  | zero =>
    right
    exact ⟨fun i h1 h2 => by omega, rfl⟩
  | succ m ih =>
    rw [List.range'_succ]
    by_cases hel : searchMatches q (pools.getD s []) ≠ [] ∧
        searchMatches q (displays.getD s []) = []
    · left
      refine ⟨s, le_refl s, by omega, hel.1, hel.2, fun j h1 h2 => by omega, ?_⟩
      unfold addSearchedLoop
      rw [if_pos ⟨hq, hel⟩]
    · have hstep : addSearchedLoop cfg pools q displays
          (s :: List.range' (s + 1) m) =
          addSearchedLoop cfg pools q displays (List.range' (s + 1) m) := by
        conv_lhs => rw [addSearchedLoop]
        rw [if_neg (fun hcon => hel ⟨hcon.2.1, hcon.2.2⟩)]
      rw [hstep]
      rcases ih (s + 1) with ⟨k, h1, h2, h3, h4, h5, h6⟩ | ⟨h1, h2⟩
      · left
        refine ⟨k, by omega, by omega, h3, h4, ?_, h6⟩
        intro j hj1 hj2
        rcases Nat.eq_or_lt_of_le hj1 with h | h
        · rw [← h]
          exact hel
        · exact h5 j h hj2
      · right
        refine ⟨?_, h2⟩
        intro i hi1 hi2
        rcases Nat.eq_or_lt_of_le hi1 with h | h
        · rw [← h]
          exact hel
        · exact h1 i h (by omega)

/-- C4 (amended): for every non-empty query, either there is a first
category `k` whose pool contains a match absent from its DisplaySet — the
scan stops there, replaces DisplaySet `k` by the old DisplaySet plus ALL
matching pool rows (exactly one when a single row matches) re-sorted by the
category's criterion, and leaves every other category's DisplaySet (and all
pools, which the operation never writes) unchanged — or no category is
eligible and every DisplaySet is unchanged. -/
theorem search_inserts_first_match (cfg : Config)
    (pools displays : List (List Entry)) (q : String) (hq : q ≠ "") :
    (∃ k, k < cfg.numCategories ∧
        searchMatches q (pools.getD k []) ≠ [] ∧
        searchMatches q (displays.getD k []) = [] ∧
        (∀ j, j < k →
          ¬(searchMatches q (pools.getD j []) ≠ [] ∧
            searchMatches q (displays.getD j []) = [])) ∧
        addSearchedRegion cfg pools displays q =
          displays.set k (resortDisplay cfg k
            (displays.getD k [] ++ searchMatches q (pools.getD k []))) ∧
        (∀ j, j ≠ k → (addSearchedRegion cfg pools displays q).getD j [] =
          displays.getD j [])) ∨
    ((∀ i, i < cfg.numCategories →
        ¬(searchMatches q (pools.getD i []) ≠ [] ∧
          searchMatches q (displays.getD i []) = [])) ∧
      addSearchedRegion cfg pools displays q = displays) := by
  unfold addSearchedRegion
  rw [List.range_eq_range']
  rcases addSearchedLoop_range' cfg pools q displays hq cfg.numCategories 0
    with ⟨k, h1, h2, h3, h4, h5, h6⟩ | ⟨h1, h2⟩
  · left
    refine ⟨k, by omega, h3, h4, fun j hj => h5 j (Nat.zero_le j) hj, h6, ?_⟩
    intro j hj
    rw [h6]
    exact getD_set_ne _ _ _ (fun h => hj h.symm)
  · right
    exact ⟨fun i hi => h1 i (Nat.zero_le i) (by omega), h2⟩

/-- Rows for the search scenarios: two rows sharing the region name "Dup". -/
def eD1 : Entry := ⟨"Dup", "4000", 1, 6, 0⟩

def eD2 : Entry := ⟨"Dup", "4001", 2, 7, 0⟩

def eD3 : Entry := ⟨"Solo", "4002", 3, 8, 0⟩

def cfgC4 : Config := ⟨1, [0], [false], 12, 2, 9/100, 3/50, (-3/40, 43/40)⟩

def poolsC4 : List (List Entry) := [[eD1, eD2, eD3]]

def displaysC4 : List (List Entry) := [[eD3]]

/-- Counterexample to C4 as stated: when two pool rows share the queried
region name and neither is displayed, the search appends BOTH rows (the
DisplaySet grows from 1 to 3), not at most one matching entry. -/
theorem search_inserts_cex :
    (displaysC4.getD 0 []).length = 1 ∧
    ¬(((addSearchedRegion cfgC4 poolsC4 displaysC4 "Dup").getD 0 []).length ≤
      (displaysC4.getD 0 []).length + 1) := by
  have hd : (displaysC4.getD 0 []).length = 1 := rfl
  have hlen : ((addSearchedRegion cfgC4 poolsC4 displaysC4 "Dup").getD 0
      []).length = 3 := by decide
  refine ⟨hd, ?_⟩
  rw [hlen, hd]
  omega

/-- Witness for the amended C4 at the duplicate-region scenario. -/
theorem search_inserts_first_match_witness :
    ("Dup" : String) ≠ "" ∧
    ((∃ k, k < cfgC4.numCategories ∧
        searchMatches "Dup" (poolsC4.getD k []) ≠ [] ∧
        searchMatches "Dup" (displaysC4.getD k []) = [] ∧
        (∀ j, j < k →
          ¬(searchMatches "Dup" (poolsC4.getD j []) ≠ [] ∧
            searchMatches "Dup" (displaysC4.getD j []) = [])) ∧
        addSearchedRegion cfgC4 poolsC4 displaysC4 "Dup" =
          displaysC4.set k (resortDisplay cfgC4 k
            (displaysC4.getD k [] ++ searchMatches "Dup" (poolsC4.getD k []))) ∧
        (∀ j, j ≠ k →
          (addSearchedRegion cfgC4 poolsC4 displaysC4 "Dup").getD j [] =
            displaysC4.getD j [])) ∨
    ((∀ i, i < cfgC4.numCategories →
        ¬(searchMatches "Dup" (poolsC4.getD i []) ≠ [] ∧
          searchMatches "Dup" (displaysC4.getD i []) = [])) ∧
      addSearchedRegion cfgC4 poolsC4 displaysC4 "Dup" = displaysC4)) :=
  ⟨by decide, search_inserts_first_match cfgC4 poolsC4 displaysC4 "Dup"
    (by decide)⟩

/-- Witness for C8: a query matching nothing leaves the DisplaySets
untouched. -/
theorem search_noop_witness :
    (("Nomatch" : String) = "" ∨ ∀ i, i < cfgC4.numCategories →
        (searchMatches "Nomatch" (poolsC4.getD i []) = [] ∨
          searchMatches "Nomatch" (displaysC4.getD i []) ≠ [])) ∧
    addSearchedRegion cfgC4 poolsC4 displaysC4 "Nomatch" = displaysC4 :=
  ⟨by decide, search_noop cfgC4 poolsC4 displaysC4 "Nomatch" (by decide)⟩

/-! ### Plot-data builder (C2, C6, C10) -/

/-- One rendered unit of `__build_plot_data__` / `__draw_phase_boxes__`:
the 4-point polyline, the label position, and the lookup fields used for
the searched-row extraction.  The line points are optional because the
phase-box pass stores `None` placeholders for zero-ratio categories. -/
structure PlotDatum where
  lineX : Option (List ℚ)
  lineY : Option (List ℚ)
  textX : ℚ
  textY : ℚ
  region : String
  postcode : String
deriving DecidableEq, Repr, Inhabited

/-- The running state of `__build_plot_data__`: `last_text_y`
(`none` = `float('inf')`), the viewport, and the rows built so far. -/
structure BuildAcc where
  lastTextY : Option ℚ
  yr : ℚ × ℚ
  data : List PlotDatum
deriving Repr

/-- Lines 319-322: normalize the region's datum into `[0,1]` across the
displayed rows (0.5 when all displayed values are equal) and map it into
the band under 10% padding on each side. -/
def lineYOf (boxTop boxSize topD botD datum : ℚ) : ℚ :=
  boxTop -
    ((boxSize - boxSize * (1/10) * 2) *
      (if topD ≠ botD then (datum - botD) / (topD - botD) else 1/2)) -
    boxSize * (1/10)

/-- Lines 325-327: the label starts at the line and is pulled down to
`last_text_y - min_space_y` when it would come within `min_space_y` of the
previous label (`none` models the initial `float('inf')`). -/
def textYOf (msy : ℚ) (last : Option ℚ) (lineY : ℚ) : ℚ :=
  match last with
  | none => lineY
  | some l => if l - lineY < msy then l - msy else lineY

/-- Lines 317-355: place one region — compute its line and label heights,
record the 4-point polyline `[1, 1.25, 1.25, 1.5]` at heights
`[line_y, line_y, text_y, text_y]`, and check the label against the
viewport. -/
def placeRegion (msy : ℚ) (boxTop boxSize topD botD : ℚ) (key : Entry → ℚ)
    (acc : BuildAcc) (e : Entry) : BuildAcc :=
  let lineY := lineYOf boxTop boxSize topD botD (key e)
  let textY := textYOf msy acc.lastTextY lineY
  ⟨some textY, attemptAdjustYRange textY acc.yr,
    acc.data ++ [⟨some [1, 5/4, 5/4, 3/2], some [lineY, lineY, textY, textY],
      3/2, textY, e.region, e.postcode⟩]⟩

/-- Lines 303-357: one category of the builder — skip zero-ratio bands,
otherwise place each displayed region and move the band top down. -/
def catStep (cfg : Config) (shares : List ℚ) (displays : List (List Entry))
    (st : ℚ × BuildAcc) (i : Nat) : ℚ × BuildAcc :=
  let boxSize := shares.getD i 0
  if boxSize = 0 then st
  else
    let key := (sortCriteria cfg i).val
    let disp := displays.getD i []
    let topD := listMax (disp.map key)
    let botD := listMin (disp.map key)
    (st.1 - boxSize,
      disp.foldl (placeRegion cfg.minSpaceY st.1 boxSize topD botD key) st.2)

/-- The category loop of `__build_plot_data__`, starting the first band's
top at `y = 1` with `last_text_y = inf`. -/
def rawPlotData (cfg : Config) (shares : List ℚ)
    (displays : List (List Entry)) (yr : ℚ × ℚ) : ℚ × BuildAcc :=
  (List.range shares.length).foldl (catStep cfg shares displays)
    (1, ⟨none, yr, []⟩)

/-- Every label keeps at least `msy` below the previous one, and
`last_text_y` is the last placed label. -/
def SpacedAcc (msy : ℚ) (acc : BuildAcc) : Prop :=
  (acc.data.map PlotDatum.textY).Chain' (fun a b => b + msy ≤ a) ∧
    (acc.data.map PlotDatum.textY).getLast? = acc.lastTextY

/-- A newly placed label sits at least `msy` below the previous one. -/
theorem textYOf_gap (msy l lineY : ℚ) :
    textYOf msy (some l) lineY + msy ≤ l := by
  show (if l - lineY < msy then l - msy else lineY) + msy ≤ l
  by_cases hc : l - lineY < msy
  · rw [if_pos hc]
    linarith
  · rw [if_neg hc]
    linarith [not_lt.mp hc]

/-- Placing one region preserves the spacing invariant. -/
theorem placeRegion_spaced (msy : ℚ) (boxTop boxSize topD botD : ℚ)
    (key : Entry → ℚ) (acc : BuildAcc) (e : Entry)
    (h : SpacedAcc msy acc) :
    SpacedAcc msy (placeRegion msy boxTop boxSize topD botD key acc e) := by
  obtain ⟨hch, hlast⟩ := h
  unfold placeRegion SpacedAcc
  simp only [List.map_append, List.map_cons, List.map_nil]
  constructor
  · rw [List.chain'_append]
    refine ⟨hch, List.chain'_singleton _, ?_⟩
    intro x hx y hy
    rw [hlast] at hx
    simp only [List.head?_cons, Option.mem_def, Option.some.injEq] at hy
    cases hacc : acc.lastTextY with
    | none =>
      rw [hacc] at hx
      cases hx
    | some l =>
      rw [hacc] at hx
      have hx' : l = x := by
        simpa using hx
      rw [← hy, hacc, ← hx']
      exact textYOf_gap msy l _
  · rw [List.getLast?_concat]

/-- The region loop preserves the spacing invariant. -/
theorem foldl_placeRegion_spaced (msy : ℚ) (boxTop boxSize topD botD : ℚ)
    (key : Entry → ℚ) (disp : List Entry) (acc : BuildAcc)
    (h : SpacedAcc msy acc) :
    SpacedAcc msy
      (disp.foldl (placeRegion msy boxTop boxSize topD botD key) acc) := by
  induction disp generalizing acc with
  | nil => exact h
  | cons e rest ih =>
    exact ih _ (placeRegion_spaced msy boxTop boxSize topD botD key acc e h)

/-- The category loop preserves the spacing invariant. -/
theorem catStep_spaced (cfg : Config) (shares : List ℚ)
    (displays : List (List Entry)) (st : ℚ × BuildAcc) (i : Nat)
    (h : SpacedAcc cfg.minSpaceY st.2) :
    SpacedAcc cfg.minSpaceY (catStep cfg shares displays st i).2 := by
  unfold catStep
  by_cases hz : shares.getD i 0 = 0
  · rw [if_pos hz]
    exact h
  · rw [if_neg hz]
    exact foldl_placeRegion_spaced _ _ _ _ _ _ _ _ h

/-- The whole builder pass keeps the invariant. -/
theorem rawPlotData_spaced (cfg : Config) (shares : List ℚ)
    (displays : List (List Entry)) (yr : ℚ × ℚ) :
    SpacedAcc cfg.minSpaceY (rawPlotData cfg shares displays yr).2 := by
  unfold rawPlotData
  generalize List.range shares.length = idxs
  have h0 : SpacedAcc cfg.minSpaceY
      ((1 : ℚ), (⟨none, yr, []⟩ : BuildAcc)).2 := by
    constructor
    · exact List.chain'_nil
    · rfl
  generalize hst : ((1 : ℚ), (⟨none, yr, []⟩ : BuildAcc)) = st at h0 ⊢
  clear hst
  induction idxs generalizing st with
  | nil => exact h0
  | cons i rest ih =>
    rw [List.foldl_cons]
    exact ih _ (catStep_spaced cfg shares displays st i h0)

/-- C2: whenever `min_space_y > 0`, the labels placed by a Plot-Data Builder
pass are strictly descending in placement order and every two consecutively
placed labels — across category bands too, since `last_text_y` carries over —
are at least `min_space_y` apart; in fact any two placed labels are at least
`min_space_y` apart, so no two labels overlap. -/
theorem labels_spaced (cfg : Config) (shares : List ℚ)
    (displays : List (List Entry)) (yr : ℚ × ℚ)
    (hmsy : 0 < cfg.minSpaceY) :
    ((rawPlotData cfg shares displays yr).2.data.map PlotDatum.textY).Chain'
      (fun a b => b + cfg.minSpaceY ≤ a) ∧
    ((rawPlotData cfg shares displays yr).2.data.map PlotDatum.textY).Pairwise
      (fun a b => b + cfg.minSpaceY ≤ a) ∧
    ((rawPlotData cfg shares displays yr).2.data.map PlotDatum.textY).Pairwise
      (fun a b => b < a) := by
  have hch := (rawPlotData_spaced cfg shares displays yr).1
  haveI : IsTrans ℚ (fun a b => b + cfg.minSpaceY ≤ a) := by
    constructor
    intro a b c hab hbc
    have : (0 : ℚ) < cfg.minSpaceY := hmsy
    linarith
  have hpw : ((rawPlotData cfg shares displays yr).2.data.map
      PlotDatum.textY).Pairwise (fun a b => b + cfg.minSpaceY ≤ a) :=
    List.chain'_iff_pairwise.mp hch
  refine ⟨hch, hpw, ?_⟩
  exact hpw.imp (fun h => by linarith)

/-- Witness for C2 at a concrete configuration and display list. -/
theorem labels_spaced_witness :
    0 < cfgW.minSpaceY ∧
    (((rawPlotData cfgW [1] [[eW1]] cfgW.yRange).2.data.map
        PlotDatum.textY).Chain' (fun a b => b + cfgW.minSpaceY ≤ a) ∧
      ((rawPlotData cfgW [1] [[eW1]] cfgW.yRange).2.data.map
        PlotDatum.textY).Pairwise (fun a b => b + cfgW.minSpaceY ≤ a) ∧
      ((rawPlotData cfgW [1] [[eW1]] cfgW.yRange).2.data.map
        PlotDatum.textY).Pairwise (fun a b => b < a)) :=
  ⟨by norm_num [cfgW], labels_spaced cfgW [1] [[eW1]] cfgW.yRange
    (by norm_num [cfgW])⟩

/-! ### Branch resolver (C7) -/

/-- Line 495: an entry is branched when its 2nd and 3rd line heights
differ. -/
def isBranchedD (d : PlotDatum) : Bool :=
  match d.lineY with
  | some ys => decide (ys.getD 1 0 ≠ ys.getD 2 0)
  | none => false

/-- Lines 497-505: shift the entry's middle x-coordinates and label x by the
adjustment; leftward mode shifts the first x-coordinate, rightward mode the
last. -/
def shiftDatum (adj : ℚ) (left : Bool) (d : PlotDatum) : PlotDatum :=
  match d.lineX with
  | none => d
  | some xs =>
    let xs' :=
      if left then
        ((xs.set 0 (xs.getD 0 0 + adj)).set 1 (xs.getD 1 0 + adj)).set 2
          (xs.getD 2 0 + adj)
      else
        ((xs.set 3 (xs.getD 3 0 + adj)).set 1 (xs.getD 1 0 + adj)).set 2
          (xs.getD 2 0 + adj)
    ⟨some xs', d.lineY, d.textX + adj, d.textY, d.region, d.postcode⟩

/-- Source `__adjust_branches__` (lines 486-509) on the REVERSED entry list (the
source walks indices from last to first): thread the consecutive-branch
counter, skip entries without a line, shift when branched or continuing a
branched run, increment on branched entries and reset otherwise. -/
def adjustRev (msx : ℚ) (left : Bool) : Nat → List PlotDatum → List PlotDatum
  | _, [] => []
  | c, d :: rest =>
    match d.lineX with
    | none => d :: adjustRev msx left c rest
    | some _ =>
      let b := isBranchedD d
      let adj0 := msx * (c : ℚ)
      let adj := if left then -adj0 else adj0
      (if b = true ∨ c ≠ 0 then shiftDatum adj left d else d) ::
        adjustRev msx left (if b then c + 1 else 0) rest

/-- Source `__adjust_branches__` itself, as a transformation of the forward list. -/
def adjustBranches (msx : ℚ) (left : Bool) (l : List PlotDatum) :
    List PlotDatum :=
  (adjustRev msx left 0 l.reverse).reverse

/-- The consecutive-branch counter sequence along the walk: starts at `c`,
increments after branched entries, resets after unbranched ones. -/
def counterSeq (c : Nat) : List Bool → List Nat
  | [] => []
  | b :: rest => c :: counterSeq (if b then c + 1 else 0) rest

/-- The per-entry effect of the resolver at counter value `c`. -/
def resolveAt (msx : ℚ) (left : Bool) (c : Nat) (d : PlotDatum) : PlotDatum :=
  if isBranchedD d = true ∨ c ≠ 0 then
    shiftDatum (if left then -(msx * (c : ℚ)) else msx * (c : ℚ)) left d
  else d

/-- The counter sequence is as long as the flag sequence. -/
theorem counterSeq_length (c : Nat) (bs : List Bool) :
    (counterSeq c bs).length = bs.length := by
  induction bs generalizing c with
  | nil => rfl
  | cons b rest ih =>
    unfold counterSeq
    rw [List.length_cons, List.length_cons, ih]

/-- On all-line entries the resolver is the per-entry shift at the counter
sequence. -/
theorem adjustRev_eq_zipWith (msx : ℚ) (left : Bool) (c : Nat)
    (l : List PlotDatum) (h : ∀ d ∈ l, d.lineX.isSome) :
    adjustRev msx left c l =
      List.zipWith (resolveAt msx left) (counterSeq c (l.map isBranchedD))
        l := by
  induction l generalizing c with
  | nil => rfl
  | cons d rest ih =>
    obtain ⟨xs, hxs⟩ :=
      Option.isSome_iff_exists.mp (h d (List.mem_cons_self d rest))
    have htail := ih (if isBranchedD d then c + 1 else 0)
      (fun d' hd' => h d' (List.mem_cons_of_mem d hd'))
    have hhead : adjustRev msx left c (d :: rest) =
        resolveAt msx left c d ::
          adjustRev msx left (if isBranchedD d then c + 1 else 0) rest := by
      conv_lhs => rw [adjustRev]
      rw [hxs]
      exact rfl
    rw [List.map_cons]
    unfold counterSeq
    rw [List.zipWith_cons_cons, hhead, htail]

/-- Counter recurrence: increment after a branched entry, reset after an
unbranched one. -/
theorem counterSeq_getD_succ (bs : List Bool) (c j : Nat)
    (h : j + 1 < bs.length) :
    (counterSeq c bs).getD (j + 1) 0 =
      if bs.getD j false then (counterSeq c bs).getD j 0 + 1 else 0 := by
  induction bs generalizing c j with
  | nil => simp at h
  | cons b rest ih =>
    cases j with
    | zero =>
      cases rest with
      | nil => simp at h
      | cons b2 r2 =>
        cases b with
        | true => simp [counterSeq]
        | false => simp [counterSeq]
    | succ j' =>
      have hlen : j' + 1 < rest.length := by
        rw [List.length_cons] at h
        omega
      have := ih (if b then c + 1 else 0) j' hlen
      simpa [counterSeq] using this

/-- The shift moves the label x by exactly the adjustment. -/
theorem resolveAt_textX (msx : ℚ) (left : Bool) (c : Nat) (d : PlotDatum)
    (hd : d.lineX.isSome) :
    (resolveAt msx left c d).textX =
      d.textX + (if left then -1 else 1) * msx * (c : ℚ) := by
  obtain ⟨xs, hxs⟩ := Option.isSome_iff_exists.mp hd
  unfold resolveAt
  by_cases hb : isBranchedD d = true ∨ c ≠ 0
  · rw [if_pos hb]
    unfold shiftDatum
    rw [hxs]
    cases left with
    | true =>
      show d.textX + -(msx * (c : ℚ)) = d.textX + -1 * msx * (c : ℚ)
      ring
    | false =>
      show d.textX + msx * (c : ℚ) = d.textX + 1 * msx * (c : ℚ)
      ring
  · rw [if_neg hb]
    push_neg at hb
    rw [hb.2]
    push_cast
    ring

/-- C7: on a sequence of line entries walked from last to first, the Branch
Resolver shifts each entry by `min_space_x` times the current
consecutive-branch counter (sign flipped and applied to the first rather
than the last x-coordinate in leftward mode — `resolveAt`); the counter
increments along a branched run, making the offsets a non-decreasing
staircase there (for non-negative `min_space_x`), and resets to 0 right
after each unbranched entry so offsets restart at 0. -/
theorem adjust_branches_staircase (msx : ℚ) (left : Bool)
    (l : List PlotDatum) (hmsx : 0 ≤ msx)
    (hl : ∀ d ∈ l, d.lineX.isSome) :
    ((adjustBranches msx left l).reverse =
      List.zipWith (resolveAt msx left)
        (counterSeq 0 (l.reverse.map isBranchedD)) l.reverse) ∧
    (∀ j, j + 1 < l.length →
      ((l.reverse.map isBranchedD).getD j false = true →
        (counterSeq 0 (l.reverse.map isBranchedD)).getD (j + 1) 0 =
          (counterSeq 0 (l.reverse.map isBranchedD)).getD j 0 + 1 ∧
        msx * ((counterSeq 0 (l.reverse.map isBranchedD)).getD j 0 : ℚ) ≤
          msx * ((counterSeq 0 (l.reverse.map isBranchedD)).getD (j + 1) 0 : ℚ)) ∧
      ((l.reverse.map isBranchedD).getD j false = false →
        (counterSeq 0 (l.reverse.map isBranchedD)).getD (j + 1) 0 = 0)) ∧
    (∀ j, j < l.length →
      ((adjustBranches msx left l).reverse.getD j default).textX =
        (l.reverse.getD j default).textX +
          (if left then -1 else 1) * msx *
            ((counterSeq 0 (l.reverse.map isBranchedD)).getD j 0 : ℚ)) := by
  have hrev : ∀ d ∈ l.reverse, d.lineX.isSome :=
    fun d hd => hl d (List.mem_reverse.mp hd)
  have hzip : (adjustBranches msx left l).reverse =
      List.zipWith (resolveAt msx left)
        (counterSeq 0 (l.reverse.map isBranchedD)) l.reverse := by
    unfold adjustBranches
    rw [List.reverse_reverse]
    exact adjustRev_eq_zipWith msx left 0 l.reverse hrev
  have hclen : (counterSeq 0 (l.reverse.map isBranchedD)).length = l.length := by
    rw [counterSeq_length, List.length_map, List.length_reverse]
  refine ⟨hzip, ?_, ?_⟩
  · intro j hj
    have hlen : j + 1 < (l.reverse.map isBranchedD).length := by
      rw [List.length_map, List.length_reverse]
      exact hj
    constructor
    · intro hb
      have hrec := counterSeq_getD_succ (l.reverse.map isBranchedD) 0 j hlen
      rw [hb, if_pos rfl] at hrec
      refine ⟨hrec, ?_⟩
      rw [hrec]
      push_cast
      nlinarith [Nat.cast_nonneg (α := ℚ)
        ((counterSeq 0 (l.reverse.map isBranchedD)).getD j 0)]
    · intro hb
      have hrec := counterSeq_getD_succ (l.reverse.map isBranchedD) 0 j hlen
      rw [hb] at hrec
      simpa using hrec
  · intro j hj
    rw [hzip]
    have hj1 : j < (counterSeq 0 (l.reverse.map isBranchedD)).length := by
      rw [hclen]
      exact hj
    have hj2 : j < l.reverse.length := by
      rw [List.length_reverse]
      exact hj
    have hj3 : j < (List.zipWith (resolveAt msx left)
        (counterSeq 0 (l.reverse.map isBranchedD)) l.reverse).length := by
      rw [List.length_zipWith]
      omega
    rw [List.getD_eq_getElem _ _ hj3, List.getElem_zipWith,
      List.getD_eq_getElem _ _ hj2, List.getD_eq_getElem _ _ hj1]
    exact resolveAt_textX msx left _ _ (hrev _ (List.getElem_mem _))

/-- Two concrete line entries (the lower one branched). -/
def pdA : PlotDatum := ⟨some [1, 5/4, 5/4, 3/2], some [1, 1, 1, 1], 3/2, 1, "A", "1"⟩

def pdB : PlotDatum := ⟨some [1, 5/4, 5/4, 3/2], some [1, 1, 0, 0], 3/2, 0, "B", "2"⟩

/-- Witness for C7 on a concrete two-entry sequence with `min_space_x = 1`. -/
theorem adjust_branches_staircase_witness :
    ((0 : ℚ) ≤ 1 ∧ ∀ d ∈ [pdA, pdB], d.lineX.isSome = true) ∧
    (((adjustBranches 1 false [pdA, pdB]).reverse =
      List.zipWith (resolveAt 1 false)
        (counterSeq 0 ([pdA, pdB].reverse.map isBranchedD))
        [pdA, pdB].reverse) ∧
    (∀ j, j + 1 < [pdA, pdB].length →
      (([pdA, pdB].reverse.map isBranchedD).getD j false = true →
        (counterSeq 0 ([pdA, pdB].reverse.map isBranchedD)).getD (j + 1) 0 =
          (counterSeq 0 ([pdA, pdB].reverse.map isBranchedD)).getD j 0 + 1 ∧
        (1 : ℚ) * ((counterSeq 0 ([pdA, pdB].reverse.map isBranchedD)).getD j 0 : ℚ) ≤
          1 * ((counterSeq 0 ([pdA, pdB].reverse.map isBranchedD)).getD (j + 1) 0 : ℚ)) ∧
      (([pdA, pdB].reverse.map isBranchedD).getD j false = false →
        (counterSeq 0 ([pdA, pdB].reverse.map isBranchedD)).getD (j + 1) 0 = 0)) ∧
    (∀ j, j < [pdA, pdB].length →
      ((adjustBranches 1 false [pdA, pdB]).reverse.getD j default).textX =
        ([pdA, pdB].reverse.getD j default).textX +
          (if false then -1 else 1) * 1 *
            ((counterSeq 0 ([pdA, pdB].reverse.map isBranchedD)).getD j 0 : ℚ))) :=
  ⟨⟨by norm_num, by decide⟩,
    adjust_branches_staircase 1 false [pdA, pdB] (by norm_num) (by decide)⟩

/-! ### Full pass, session state and viewport evolution (C6, C10) -/

/-- Lines 363-369: from the end of the list, move the first entry whose
region name or postcode equals the active query into the searched
collection. -/
def extractSearched (q : String) (l : List PlotDatum) :
    List PlotDatum × List PlotDatum :=
  match l.reverse.findIdx?
      (fun d => decide (d.region = q) || decide (d.postcode = q)) with
  | none => (l, [])
  | some r => (l.eraseIdx (l.length - 1 - r),
      [l.getD (l.length - 1 - r) default])

/-- Source `__build_plot_data__` (lines 298-372): build the raw entries, resolve
branches rightward, split off the searched entry; returns the main
collection, the searched collection, and the updated viewport. -/
def buildPlotData (cfg : Config) (shares : List ℚ)
    (displays : List (List Entry)) (lastSearched : String) (yr : ℚ × ℚ) :
    List PlotDatum × List PlotDatum × (ℚ × ℚ) :=
  let st := rawPlotData cfg shares displays yr
  let pair := extractSearched lastSearched
    (adjustBranches cfg.minSpaceX false st.2.data)
  (pair.1, pair.2, st.2.yr)

/-- The user-facing operations of one server session. -/
inductive SessionOp where
  | search (q : String)
  | reset
deriving Repr

/-- The per-session mutable state: the DisplaySets, the last searched
query, the viewport, and the two plotted collections. -/
structure SessionState where
  displays : List (List Entry)
  lastSearched : String
  yr : ℚ × ℚ
  mainData : List PlotDatum
  searchedData : List PlotDatum

/-- Source `__init__` (lines 125-157): categorize, compute ratios, select display
regions, and build the plot data once. -/
def initSession (cfg : Config) (table : List Entry) : SessionState :=
  let displays := buildDisplayRegions cfg (categorizedEntries cfg table)
    (ratiosOf cfg table)
  let built := buildPlotData cfg (ratiosOf cfg table) displays "" cfg.yRange
  ⟨displays, "", built.2.2, built.1, built.2.1⟩

/-- Source `handle_search` (lines 533-535) and `handle_reset` (lines 537-541):
a search injects the queried row and rebuilds the plot data; a reset clears
the query, rebuilds the DisplaySets from scratch and rebuilds the plot
data.  Neither resets the viewport. -/
def stepSession (cfg : Config) (table : List Entry) (st : SessionState) :
    SessionOp → SessionState
  | .search q =>
    let displays := addSearchedRegion cfg (categorizedEntries cfg table)
      st.displays q
    let built := buildPlotData cfg (ratiosOf cfg table) displays q st.yr
    ⟨displays, q, built.2.2, built.1, built.2.1⟩
  | .reset =>
    let displays := buildDisplayRegions cfg (categorizedEntries cfg table)
      (ratiosOf cfg table)
    let built := buildPlotData cfg (ratiosOf cfg table) displays "" st.yr
    ⟨displays, "", built.2.2, built.1, built.2.1⟩

/-- C6: after any sequence of searches, a reset restores every category's
DisplaySet to exactly the list built by the initial Display Selector run
(the selector is re-run on the unchanged pools and ratios, discarding any
injected row). -/
theorem reset_restores_displays (cfg : Config) (table : List Entry)
    (qs : List String) :
    (stepSession cfg table
        (qs.foldl (fun st q => stepSession cfg table st (.search q))
          (initSession cfg table)) .reset).displays =
      (initSession cfg table).displays := rfl

/-- Viewport evolution order: upper bound unchanged, lower bound
non-increasing (the latter guaranteed when the upper bound is at least 1). -/
def yrWithin (yr' yr : ℚ × ℚ) : Prop :=
  yr'.2 = yr.2 ∧ (1 ≤ yr.2 → yr'.1 ≤ yr.1)

theorem yrWithin_refl (yr : ℚ × ℚ) : yrWithin yr yr :=
  ⟨rfl, fun _ => le_refl _⟩

theorem yrWithin_trans {a b c : ℚ × ℚ} (h1 : yrWithin a b)
    (h2 : yrWithin b c) : yrWithin a c := by
  refine ⟨h1.1.trans h2.1, fun h => ?_⟩
  have hb : 1 ≤ b.2 := by
    rw [h2.1]
    exact h
  exact le_trans (h1.2 hb) (h2.2 h)

/-- One range check keeps the upper bound and can only lower the lower
bound (when the upper bound is at least 1). -/
theorem attemptAdjustYRange_within (y : ℚ) (yr : ℚ × ℚ) :
    yrWithin (attemptAdjustYRange y yr) yr := by
  unfold attemptAdjustYRange
  by_cases h : y < yr.1
  · rw [if_pos h]
    exact ⟨rfl, fun hu => by
      show y - (yr.2 - 1) ≤ yr.1
      linarith⟩
  · rw [if_neg h]
    exact yrWithin_refl yr

theorem placeRegion_within (msy boxTop boxSize topD botD : ℚ)
    (key : Entry → ℚ) (acc : BuildAcc) (e : Entry) :
    yrWithin (placeRegion msy boxTop boxSize topD botD key acc e).yr acc.yr :=
  attemptAdjustYRange_within _ _

theorem foldl_placeRegion_within (msy boxTop boxSize topD botD : ℚ)
    (key : Entry → ℚ) (disp : List Entry) (acc : BuildAcc) :
    yrWithin
      ((disp.foldl (placeRegion msy boxTop boxSize topD botD key) acc).yr)
      acc.yr := by
  induction disp generalizing acc with
  | nil => exact yrWithin_refl _
  | cons e rest ih =>
    exact yrWithin_trans (ih _)
      (placeRegion_within msy boxTop boxSize topD botD key acc e)

theorem catStep_within (cfg : Config) (shares : List ℚ)
    (displays : List (List Entry)) (st : ℚ × BuildAcc) (i : Nat) :
    yrWithin (catStep cfg shares displays st i).2.yr st.2.yr := by
  unfold catStep
  by_cases hz : shares.getD i 0 = 0
  · rw [if_pos hz]
    exact yrWithin_refl _
  · rw [if_neg hz]
    exact foldl_placeRegion_within _ _ _ _ _ _ _ _

theorem rawPlotData_within (cfg : Config) (shares : List ℚ)
    (displays : List (List Entry)) (yr : ℚ × ℚ) :
    yrWithin (rawPlotData cfg shares displays yr).2.yr yr := by
  unfold rawPlotData
  generalize List.range shares.length = idxs
  have h0 : yrWithin ((1 : ℚ), (⟨none, yr, []⟩ : BuildAcc)).2.yr yr :=
    yrWithin_refl yr
  generalize hst : ((1 : ℚ), (⟨none, yr, []⟩ : BuildAcc)) = st at h0 ⊢
  clear hst
  induction idxs generalizing st with
  | nil => exact h0
  | cons i rest ih =>
    rw [List.foldl_cons]
    exact ih _ (yrWithin_trans (catStep_within cfg shares displays st i) h0)

theorem buildPlotData_within (cfg : Config) (shares : List ℚ)
    (displays : List (List Entry)) (q : String) (yr : ℚ × ℚ) :
    yrWithin (buildPlotData cfg shares displays q yr).2.2 yr :=
  rawPlotData_within cfg shares displays yr

theorem stepSession_within (cfg : Config) (table : List Entry)
    (st : SessionState) (op : SessionOp) :
    yrWithin (stepSession cfg table st op).yr st.yr := by
  cases op with
  | search q => exact buildPlotData_within cfg _ _ q st.yr
  | reset => exact buildPlotData_within cfg _ _ "" st.yr

theorem initSession_within (cfg : Config) (table : List Entry) :
    yrWithin (initSession cfg table).yr cfg.yRange :=
  buildPlotData_within cfg _ _ "" cfg.yRange

/-- C10 (amended): provided the configured viewport's upper bound is at
least 1 (true of the default `(-0.075, 1.075)`), every session state
reachable by the initial build followed by any sequence of searches and
resets keeps the configured upper bound and has a lower bound at most the
configured one, and every FURTHER operation — a search or, in particular, a
reset — leaves the upper bound unchanged and never increases the lower
bound; so a reset cannot restore the original viewport once the builder has
expanded it. -/
theorem session_yrange_evolution (cfg : Config) (table : List Entry)
    (ops : List SessionOp) (h : 1 ≤ cfg.yRange.2) :
    ((ops.foldl (stepSession cfg table) (initSession cfg table)).yr.2 =
        cfg.yRange.2 ∧
      (ops.foldl (stepSession cfg table) (initSession cfg table)).yr.1 ≤
        cfg.yRange.1) ∧
    (∀ op : SessionOp,
      (stepSession cfg table
          (ops.foldl (stepSession cfg table) (initSession cfg table))
          op).yr.2 =
        (ops.foldl (stepSession cfg table) (initSession cfg table)).yr.2 ∧
      (stepSession cfg table
          (ops.foldl (stepSession cfg table) (initSession cfg table))
          op).yr.1 ≤
        (ops.foldl (stepSession cfg table) (initSession cfg table)).yr.1) := by
  have hfold : yrWithin
      (ops.foldl (stepSession cfg table) (initSession cfg table)).yr
      cfg.yRange := by
    have h0 := initSession_within cfg table
    generalize hst : initSession cfg table = st at h0 ⊢
    clear hst
    induction ops generalizing st with
    | nil => exact h0
    | cons op rest ih =>
      rw [List.foldl_cons]
      exact ih _ (yrWithin_trans (stepSession_within cfg table st op) h0)
  refine ⟨⟨hfold.1, hfold.2 h⟩, ?_⟩
  intro op
  have hstep := stepSession_within cfg table
    (ops.foldl (stepSession cfg table) (initSession cfg table)) op
  refine ⟨hstep.1, hstep.2 ?_⟩
  rw [hfold.1]
  exact h

/-- A configuration whose viewport upper bound is below 1. -/
def cfgC10 : Config := ⟨1, [0], [false], 12, 2, 9/100, 3/50, (3/5, 7/10)⟩

def tableC10 : List Entry := [eW1]

/-- Counterexample to C10 as stated: with the configured viewport
`(0.6, 0.7)` the initial build places its only label at `y = 0.5 < 0.6` and
the Range Auto-Expander RAISES the lower bound to
`0.5 - (0.7 - 1) = 0.8 > 0.6`. -/
theorem session_yrange_cex :
    cfgC10.yRange.1 < (initSession cfgC10 tableC10).yr.1 := by
  have hb : adjustedBounds cfgC10 tableC10 = [0, 1] := by
    norm_num [adjustedBounds, tableC10, cfgC10, eW1, listMax]
  have hpool : rawPool tableC10 (adjustedBounds cfgC10 tableC10) cfgC10 0 =
      [eW1] := by
    rw [hb]
    unfold rawPool tableC10
    simp only [List.filter_cons, List.filter_nil]
    norm_num [inCategory, incCriterion, cfgC10, Criterion.val, eW1]
  have hcat : categorizedEntries cfgC10 tableC10 = [[eW1]] := by
    unfold categorizedEntries categorize
    have h0 : (List.range' 1 (cfgC10.numCategories - 1)).reverse = [] := rfl
    rw [h0, List.foldl_nil]
    have h1 : List.range cfgC10.numCategories = [0] := rfl
    rw [h1, List.map_cons, List.map_nil, hpool]
  have hrat : ratiosOf cfgC10 tableC10 = [1] := by
    unfold ratiosOf calculateRatios
    rw [hcat]
    norm_num [tableC10]
  have hdc : numDisplayRegions cfgC10 (1 : ℚ) = 12 := by
    unfold numDisplayRegions
    norm_num [cfgC10]
  have hdisp : buildDisplayRegions cfgC10 [[eW1]] [1] = [[eW1]] := by
    unfold buildDisplayRegions
    have h1 : List.range cfgC10.numCategories = [0] := rfl
    rw [h1, List.map_cons, List.map_nil]
    rw [show (([1] : List ℚ).getD 0 0) = 1 from rfl, hdc]
    rfl
  have hyr : (initSession cfgC10 tableC10).yr =
      (rawPlotData cfgC10 (ratiosOf cfgC10 tableC10)
        (buildDisplayRegions cfgC10 (categorizedEntries cfgC10 tableC10)
          (ratiosOf cfgC10 tableC10)) cfgC10.yRange).2.yr := rfl
  have hraw : (rawPlotData cfgC10 [1] [[eW1]] cfgC10.yRange).2.yr =
      (4/5, 7/10) := by
    unfold rawPlotData
    have h1 : List.range ([1] : List ℚ).length = [0] := rfl
    rw [h1, List.foldl_cons, List.foldl_nil]
    unfold catStep
    rw [show (([1] : List ℚ).getD 0 0) = 1 from rfl]
    rw [if_neg (by norm_num : ¬(1 : ℚ) = 0)]
    rw [show (([[eW1]] : List (List Entry)).getD 0 []) = [eW1] from rfl]
    dsimp only
    rw [List.foldl_cons, List.foldl_nil]
    unfold placeRegion
    dsimp only
    have hkey : listMax ([eW1].map (sortCriteria cfgC10 0).val) = 10 := rfl
    have hkey2 : listMin ([eW1].map (sortCriteria cfgC10 0).val) = 10 := rfl
    rw [hkey, hkey2]
    have hline : lineYOf 1 1 10 10 ((sortCriteria cfgC10 0).val eW1) =
        1/2 := by
      unfold lineYOf
      rw [if_neg (by norm_num : ¬(10 : ℚ) ≠ 10)]
      norm_num
    rw [show textYOf cfgC10.minSpaceY none
        (lineYOf 1 1 10 10 ((sortCriteria cfgC10 0).val eW1)) =
        lineYOf 1 1 10 10 ((sortCriteria cfgC10 0).val eW1) from rfl, hline]
    unfold attemptAdjustYRange
    rw [if_pos (by norm_num [cfgC10] : (1/2 : ℚ) < cfgC10.yRange.1)]
    norm_num [cfgC10]
  rw [hyr, hrat, hcat, hdisp, hraw]
  norm_num [cfgC10]

/-- Witness for the amended C10 with the default-style viewport
`(-0.075, 1.075)`. -/
theorem session_yrange_evolution_witness :
    1 ≤ cfgW.yRange.2 ∧
    ((([SessionOp.reset].foldl (stepSession cfgW tableW)
        (initSession cfgW tableW)).yr.2 = cfgW.yRange.2 ∧
      ([SessionOp.reset].foldl (stepSession cfgW tableW)
        (initSession cfgW tableW)).yr.1 ≤ cfgW.yRange.1) ∧
    (∀ op : SessionOp,
      (stepSession cfgW tableW
          ([SessionOp.reset].foldl (stepSession cfgW tableW)
            (initSession cfgW tableW)) op).yr.2 =
        ([SessionOp.reset].foldl (stepSession cfgW tableW)
          (initSession cfgW tableW)).yr.2 ∧
      (stepSession cfgW tableW
          ([SessionOp.reset].foldl (stepSession cfgW tableW)
            (initSession cfgW tableW)) op).yr.1 ≤
        ([SessionOp.reset].foldl (stepSession cfgW tableW)
          (initSession cfgW tableW)).yr.1)) :=
  ⟨by norm_num [cfgW], session_yrange_evolution cfgW tableW [SessionOp.reset]
    (by norm_num [cfgW])⟩
